import Mathlib

/-! The loop registry and the work queues of `embed::nodejs`, and its launcher.

A shallow embedding of `src/embed/nodejs/NodeJS.cpp`.

* An `EventLoop*` is an address (`Nat`); the objects created by `new EventLoop()` live in
  `State.heap`, and `delete` empties the cell.  `nodejsEventLoops` is the list of addresses
  kept by the C++ global of that name.
* The mutexes are not data.  `queue`, `queueMain`, `NativeModule_init` and
  `NativeModule_main_cleanup` hold `nodejsEventLoopsMutex` for their whole body, and the swap
  in `handleLoopQueue` holds the loop's `queuedWorkMutex`, so each of them is one atomic
  transition; the work items of a drain pass run outside every lock, one transition each.
* A work item is an opaque closure of type `Fn`.  A call `item.work(env)` is recorded in
  `State.calls`; the closure is taken to return.
* What the engine answers to a N-API call is an argument of the function that makes the call.
* Every address in the registry holds a live object (`Registered`, kept by every transition).
  At an address that holds none, a read through the pointer yields nothing and a write is
  dropped; no reachable state exercises this.
-/

namespace embed.nodejs

/-- Status returned by a N-API call (`napi_status` of `node_api.h`, which is outside the
sources): the two enumerators `NodeJS.cpp` names, and every other enumerator with its number. -/
inductive napi_status where
  | napi_ok
  | napi_queue_full
  | failure (code : Nat)
deriving DecidableEq

/-- The exceptions thrown by `NodeJS.cpp`, under the names of the error taxonomy:
`AlreadyStarted` is `std::logic_error("NodeJS already started")`,
`ArgumentOverflow` is `std::out_of_range("Too many arguments for nodejs")`,
`NoMainLoop` is `std::runtime_error("Main loop is not running")`,
`InvalidLoop` is `std::runtime_error("Attempting to queue work on invalid NodeJS event loop")`,
`ActivationFailure` is `std::runtime_error("Failed to queue work with status " + ...)`. -/
inductive Error where
  | AlreadyStarted
  | ArgumentOverflow
  | NoMainLoop
  | InvalidLoop
  | ActivationFailure (status : napi_status)
deriving DecidableEq

/-- The struct `EventLoopWork`. -/
structure EventLoopWork (Fn : Type) where
  work : Fn
deriving DecidableEq

/-- The struct `EventLoop`, with the member initialisers of the source (`nullptr` is `0`).
`queuedWorkMutex` carries no data. -/
structure EventLoop (Fn : Type) where
  uvLoop : Nat := 0
  threadId : Nat := 0
  queuedWork : List (EventLoopWork Fn) := []
  queueFunction : Nat := 0
deriving DecidableEq

/-- Calls that leave the module: the activation signal, the release of the activation handle
and the invocation of a work item by the drain pass of `eventLoop`. -/
inductive Call (Fn : Type) where
  | napi_call_threadsafe_function (func : Nat)
  | napi_release_threadsafe_function (func : Nat)
  | work (eventLoop : Nat) (item : Fn)
deriving DecidableEq

/-- The heap of `EventLoop` objects, the global `nodejsEventLoops`, and the calls made so far
(oldest first). -/
structure State (Fn : Type) where
  heap : Nat → Option (EventLoop Fn)
  nodejsEventLoops : List Nat
  calls : List (Call Fn)

variable {Fn : Type}

/-- The state of a process in which no loop has started. -/
def State.empty : State Fn :=
  { heap := fun _ => none, nodejsEventLoops := [], calls := [] }

/-- What `new EventLoop()` does at the address it returns. -/
def State.new (s : State Fn) (p : Nat) : State Fn :=
  { s with heap := Function.update s.heap p (some {}) }

/-- What `delete loop` does. -/
def State.delete (s : State Fn) (p : Nat) : State Fn :=
  { s with heap := Function.update s.heap p none }

/-- A write through `p->`; nothing is stored where no object lives. -/
def State.store (s : State Fn) (p : Nat) (f : EventLoop Fn → EventLoop Fn) : State Fn :=
  { s with heap := Function.update s.heap p ((s.heap p).map f) }

/-- Records a call that leaves the module. -/
def State.call (s : State Fn) (c : Call Fn) : State Fn :=
  { s with calls := s.calls ++ [c] }

/-- Reads `p->uvLoop`; `none` where no object lives. -/
def State.uvLoop (s : State Fn) (p : Nat) : Option Nat :=
  (s.heap p).map (fun l => l.uvLoop)

/-- Reads `p->queuedWork`. -/
def State.queuedWork (s : State Fn) (p : Nat) : List (EventLoopWork Fn) :=
  match s.heap p with
  | some l => l.queuedWork
  | none => []

/-- Reads `p->queueFunction`. -/
def State.queueFunction (s : State Fn) (p : Nat) : Nat :=
  match s.heap p with
  | some l => l.queueFunction
  | none => 0

/-- The work items `item.work(env)` called so far, each with the loop whose drain pass
called it. -/
def executed (s : State Fn) : List (Nat × Fn) :=
  s.calls.filterMap (fun c =>
    match c with
    | .work p f => some (p, f)
    | _ => none)

/-- The activation handles signalled so far. -/
def signalled (s : State Fn) : List Nat :=
  s.calls.filterMap (fun c =>
    match c with
    | .napi_call_threadsafe_function f => some f
    | _ => none)

/-- No two entries of the registry have the same native handle. -/
def DistinctHandles (s : State Fn) : Prop :=
  (s.nodejsEventLoops.map s.uvLoop).Nodup

instance (s : State Fn) : Decidable (DistinctHandles s) := by
  unfold DistinctHandles; infer_instance

/-- Modelled from the spec: the macro `NAPI_CALL` of `NAPI_Macros.hpp`, which is not among the
sources.  A call that does not answer `napi_ok` is reported to the engine and the enclosing
function returns `nullptr` at once (`ret`); otherwise the function goes on (`rest`). -/
def NAPI_CALL {α : Type} (the_call : napi_status) (ret : α) (rest : α) : α :=
  if the_call = .napi_ok then rest else ret

/-- Modelled from the spec: the macro `NAPI_CALL_ELSE` of `NAPI_Macros.hpp`, which is not among
the sources.  As `NAPI_CALL`, and the else-block runs before the function returns
(`else_block` is the outcome of running it and returning). -/
def NAPI_CALL_ELSE {α : Type} (the_call : napi_status) (else_block : α) (rest : α) : α :=
  if the_call = .napi_ok then rest else else_block

/-- Source function `getEventLoops`: a copy of the registry. -/
def getEventLoops (s : State Fn) : List Nat :=
  s.nodejsEventLoops

/-- Source function `getMainEventLoop`: the front of the registry, `nullptr` (`none`) when it
is empty. -/
def getMainEventLoop (s : State Fn) : Option Nat :=
  if s.nodejsEventLoops.length = 0 then none else s.nodejsEventLoops.head?

/-- The predicate `item->uvLoop == uvLoop` of the two `find_if` calls. -/
def hasUvLoop (s : State Fn) (uvLoop : Nat) (item : Nat) : Bool :=
  s.uvLoop item == some uvLoop

/-- Source function `getEventLoop`: the first entry with the native handle, `nullptr` (`none`)
if none has it. -/
def getEventLoop (s : State Fn) (uvLoop : Nat) : Option Nat :=
  s.nodejsEventLoops.find? (hasUvLoop s uvLoop)

/-- Source function `checkLoopValid`: is the address in the registry. -/
def checkLoopValid (s : State Fn) (loop : Nat) : Bool :=
  s.nodejsEventLoops.any (fun cmpLoop => loop == cmpLoop)

/-- Source function `queue`; `result` is the answer of `napi_call_threadsafe_function`. -/
def queue (loop : Nat) (work : Fn) (result : napi_status) (s : State Fn) :
    Except Error Unit × State Fn :=
  if !checkLoopValid s loop then
    (.error .InvalidLoop, s)
  else
    let s1 := s.store loop (fun l => { l with queuedWork := l.queuedWork ++ [{ work := work }] })
    let s2 := s1.call (.napi_call_threadsafe_function (s1.queueFunction loop))
    if result ≠ .napi_ok ∧ result ≠ .napi_queue_full then
      (.error (.ActivationFailure result), s2)
    else
      (.ok (), s2)

/-- Source function `queueMain`. -/
def queueMain (work : Fn) (result : napi_status) (s : State Fn) :
    Except Error Unit × State Fn :=
  match getMainEventLoop s with
  | none => (.error .NoMainLoop, s)
  | some mainLoop => queue mainLoop work result s

/-- The critical section of `handleLoopQueue`: the pending list is swapped into the local
`queuedWork`, which is returned with the new state. -/
def handleLoopQueue_swap (eventLoop : Nat) (s : State Fn) :
    List (EventLoopWork Fn) × State Fn :=
  (s.queuedWork eventLoop, s.store eventLoop (fun l => { l with queuedWork := [] }))

/-- One iteration of the `for` loop of `handleLoopQueue`: `item.work(env)`. -/
def handleLoopQueue_item (eventLoop : Nat) (s : State Fn) (item : EventLoopWork Fn) :
    State Fn :=
  s.call (.work eventLoop item.work)

/-- Source function `handleLoopQueue`, one whole drain pass.  `get_cb_info` is the answer of
`napi_get_cb_info` and `eventLoop` the data pointer it yields. -/
def handleLoopQueue (get_cb_info : napi_status) (eventLoop : Nat) (s : State Fn) : State Fn :=
  NAPI_CALL get_cb_info s
    (let swapped := handleLoopQueue_swap eventLoop s
     swapped.1.foldl (handleLoopQueue_item eventLoop) swapped.2)

/-- What the environment supplies to one call of `NativeModule_init`: the address returned by
`new EventLoop()`, the id of the calling thread, and the answers of the N-API calls in
the order they are made. -/
structure InitCalls where
  nodeLoop : Nat
  threadId : Nat
  get_uv_event_loop : napi_status
  uvLoop : Nat
  create_function : napi_status
  create_string_utf8 : napi_status
  create_threadsafe_function : napi_status
  queueFunction : Nat
  add_env_cleanup_hook : napi_status
  define_properties : napi_status
deriving DecidableEq

/-- Source function `NativeModule_init`.  The Boolean tells whether `exports` is returned
(`false` for `nullptr`). -/
def NativeModule_init (e : InitCalls) (s : State Fn) : Bool × State Fn :=
  let s1 := (s.new e.nodeLoop).store e.nodeLoop (fun l => { l with threadId := e.threadId })
  NAPI_CALL_ELSE e.get_uv_event_loop (false, s1.delete e.nodeLoop) <|
  let s2 := s1.store e.nodeLoop (fun l => { l with uvLoop := e.uvLoop })
  NAPI_CALL_ELSE e.create_function (false, s2.delete e.nodeLoop) <|
  NAPI_CALL_ELSE e.create_string_utf8 (false, s2.delete e.nodeLoop) <|
  NAPI_CALL_ELSE e.create_threadsafe_function (false, s2.delete e.nodeLoop) <|
  let s3 := s2.store e.nodeLoop (fun l => { l with queueFunction := e.queueFunction })
  NAPI_CALL_ELSE e.add_env_cleanup_hook
    (false, (s3.call (.napi_release_threadsafe_function (s3.queueFunction e.nodeLoop))).delete
      e.nodeLoop) <|
  let s4 := { s3 with nodejsEventLoops := s3.nodejsEventLoops ++ [e.nodeLoop] }
  NAPI_CALL e.define_properties (false, s4) (true, s4)

/-- Source function `NativeModule_main_cleanup`. -/
def NativeModule_main_cleanup (uvLoop : Nat) (s : State Fn) : State Fn :=
  match s.nodejsEventLoops.find? (hasUvLoop s uvLoop) with
  | none => s
  | some loop =>
    let s1 :=
      if s.queueFunction loop ≠ 0 then
        s.call (.napi_release_threadsafe_function (s.queueFunction loop))
      else s
    let s2 := { s1 with nodejsEventLoops := s1.nodejsEventLoops.eraseP (hasUvLoop s uvLoop) }
    s2.delete loop

/-- The calls `queue(loop, w)` of one thread after another, each with the answer its signal
gets. -/
def queueAll (loop : Nat) (ws : List (Fn × napi_status)) (s : State Fn) : State Fn :=
  ws.foldl (fun s x => (queue loop x.1 x.2 s).2) s

/-- Threads that each call `queue(loop, w)` for the items of their list in turn.  The
schedule names, call by call, the thread whose next call takes the registry lock and the
answer its signal gets; an entry for a thread that has finished does nothing.  The result is
what each thread has left to do, and the state.  (A thread goes on to its next item after
every call; the properties below are about answers on which `queue` returns.) -/
def runThreads (loop : Nat) :
    List (List Fn) → List (Nat × napi_status) → State Fn → List (List Fn) × State Fn
  | ts, [], s => (ts, s)
  | ts, (t, r) :: sched, s =>
    match ts[t]? with
    | some (w :: rest) => runThreads loop (ts.set t rest) sched (queue loop w r s).2
    | _ => runThreads loop ts sched s

/-- The transitions of the system: the four functions that hold the registry lock, and the
two halves of a drain pass (the swap, and one iteration of its loop). -/
inductive Step (Fn : Type) where
  | init (e : InitCalls)
  | queue (loop : Nat) (work : Fn) (result : napi_status)
  | queueMain (work : Fn) (result : napi_status)
  | swap (eventLoop : Nat)
  | exec (eventLoop : Nat)
  | cleanup (uvLoop : Nat)
deriving DecidableEq

/-- The state together with the local list `queuedWork` of the drain pass in progress on each
loop (what it has claimed and not yet run; empty when no pass is in progress). -/
structure Config (Fn : Type) where
  state : State Fn
  claimed : Nat → List (EventLoopWork Fn)

/-- The configuration of a process in which no loop has started. -/
def Config.empty : Config Fn :=
  { state := State.empty, claimed := fun _ => [] }

/-- One transition.  `new` returns the address of no live object, so `init` at a live address
does not occur; a drain pass starts on a live loop that has no pass in progress (the passes of
a loop run on its own thread); `exec` runs the next claimed item, if any. -/
def step (c : Config Fn) : Step Fn → Config Fn
  | .init e =>
    if (c.state.heap e.nodeLoop).isNone then
      { c with state := (NativeModule_init e c.state).2 }
    else c
  | .queue loop work result => { c with state := (queue loop work result c.state).2 }
  | .queueMain work result => { c with state := (queueMain work result c.state).2 }
  | .swap eventLoop =>
    if (c.state.heap eventLoop).isSome && (c.claimed eventLoop).isEmpty then
      { state := (handleLoopQueue_swap eventLoop c.state).2
        claimed := Function.update c.claimed eventLoop (handleLoopQueue_swap eventLoop c.state).1 }
    else c
  | .exec eventLoop =>
    match c.claimed eventLoop with
    | [] => c
    | item :: rest =>
      { state := handleLoopQueue_item eventLoop c.state item
        claimed := Function.update c.claimed eventLoop rest }
  | .cleanup uvLoop => { c with state := NativeModule_main_cleanup uvLoop c.state }

/-- A trace: the transitions of a list, in order. -/
def run (c : Config Fn) (tr : List (Step Fn)) : Config Fn :=
  tr.foldl step c

/-- The pair (loop, item) a transition appends to a pending queue, if it appends. -/
def appends (c : Config Fn) : Step Fn → Option (Nat × Fn)
  | .queue loop work _ => if checkLoopValid c.state loop then some (loop, work) else none
  | .queueMain work _ => (getMainEventLoop c.state).map (fun mainLoop => (mainLoop, work))
  | _ => none

/-- The appends of a trace, in order. -/
def appended : Config Fn → List (Step Fn) → List (Nat × Fn)
  | _, [] => []
  | c, st :: tr => (appends c st).toList ++ appended (step c st) tr

/-- The five calls that `NativeModule_init` makes before it registers the loop all answer
`napi_ok`. -/
def InitCalls.registers (e : InitCalls) : Prop :=
  e.get_uv_event_loop = .napi_ok ∧ e.create_function = .napi_ok ∧
    e.create_string_utf8 = .napi_ok ∧ e.create_threadsafe_function = .napi_ok ∧
    e.add_env_cleanup_hook = .napi_ok

instance (e : InitCalls) : Decidable e.registers := by
  unfold InitCalls.registers; infer_instance

/-- The object `NativeModule_init` has built when it registers the loop. -/
def InitCalls.entity (e : InitCalls) : EventLoop Fn :=
  { uvLoop := e.uvLoop, threadId := e.threadId, queuedWork := [], queueFunction := e.queueFunction }

/-- Every address in the registry holds a live object, and no address is there twice. -/
def Registered (s : State Fn) : Prop :=
  (∀ p ∈ s.nodejsEventLoops, s.heap p ≠ none) ∧ s.nodejsEventLoops.Nodup

/-- Loops that start one after another: the calls of `NativeModule_init`, in order. -/
def initAll (es : List InitCalls) (s : State Fn) : State Fn :=
  es.foldl (fun s e => (NativeModule_init e s).2) s

/-- The items a trace hands to `queue`, in order. -/
def queued (tr : List (Step Fn)) : List Fn :=
  tr.filterMap (fun st =>
    match st with
    | .queue _ work _ => some work
    | _ => none)

/-- The number of `exec` transitions of a trace. -/
def execs (tr : List (Step Fn)) : Nat :=
  (tr.filter (fun st =>
    match st with
    | .exec _ => true
    | _ => false)).length

/-- How many times the drain passes of loop `p` have called the item `w`. -/
def nExecuted [DecidableEq Fn] (c : Config Fn) (p : Nat) (w : Fn) : Nat :=
  (executed c.state).count (p, w)

/-- How many times the item `w` stands in the pending queue of loop `p`. -/
def nPending [DecidableEq Fn] (c : Config Fn) (p : Nat) (w : Fn) : Nat :=
  (c.state.queuedWork p).count { work := w }

/-- How many times the item `w` stands in the list claimed by the pass in progress on `p`. -/
def nClaimed [DecidableEq Fn] (c : Config Fn) (p : Nat) (w : Fn) : Nat :=
  (c.claimed p).count { work := w }

/-- An example registry: the loops at addresses 1 and 2, with native handles 11 and 12 and
activation handles 21 and 22; loop 1 has nothing pending, loop 2 holds the items 7 and 8. -/
def twoLoops : State Nat :=
  { heap := fun p =>
      if p = 1 then some { uvLoop := 11, threadId := 1, queuedWork := [], queueFunction := 21 }
      else if p = 2 then
        some { uvLoop := 12, threadId := 2, queuedWork := [⟨7⟩, ⟨8⟩], queueFunction := 22 }
      else none
    nodejsEventLoops := [1, 2]
    calls := [] }

/-- The example registry with no drain pass in progress. -/
def twoLoopsIdle : Config Nat :=
  { state := twoLoops, claimed := fun _ => [] }

/-- An example start of a loop: the object at address 1, native handle 11, activation
handle 21, and every N-API call answers `napi_ok`. -/
def firstInit : InitCalls :=
  { nodeLoop := 1, threadId := 1, get_uv_event_loop := .napi_ok, uvLoop := 11,
    create_function := .napi_ok, create_string_utf8 := .napi_ok,
    create_threadsafe_function := .napi_ok, queueFunction := 21,
    add_env_cleanup_hook := .napi_ok, define_properties := .napi_ok }

/-- An example start of a second loop: the object at address 2, native handle 12, activation
handle 22. -/
def secondInit : InitCalls :=
  { firstInit with nodeLoop := 2, threadId := 2, uvLoop := 12, queueFunction := 22 }

/-- An example start that fails when the cleanup hook is installed. -/
def failingInit : InitCalls :=
  { firstInit with nodeLoop := 3, threadId := 3, uvLoop := 13, queueFunction := 23,
                   add_env_cleanup_hook := .failure 9 }

/-! ## The launcher (`start`, `nodejs_main`)

A `std::string` is the list of its chars, one `Char` for one `char`.  A `size_t` is 64 bits
wide and an `int` 32 bits (4 bytes); where the source mixes the two the arithmetic is written
out modulo `2 ^ 64` and `2 ^ 32`.  A `char*` into the buffer `argsData` is an offset. -/

/-- A `std::string`. -/
abbrev CppString := List Char

/-- The terminator of a C string. -/
def NUL : Char := Char.ofNat 0

/-- The C string a `char*` to the chars of `s` denotes (`s.c_str()`, `s.data()`): the chars
before the first NUL. -/
def c_str (s : CppString) : CppString :=
  s.takeWhile (fun c => c != NUL)

/-- The function `strlen` at `s.c_str()`. -/
def strlen (s : CppString) : Nat :=
  (c_str s).length

/-- The struct `StartOptions` of `NodeJSEmbed.hpp`. -/
structure StartOptions where
  args : List CppString := []
  modulePaths : List CppString := []
deriving DecidableEq

/-- What the lambda of the launch thread has captured: the buffer, the pointers into it and
the count. -/
structure MainThread where
  argsData : List Char
  argv : List Nat
  argc : Int
deriving DecidableEq

/-- The process state `start` and `nodejs_main` work on: the global `nodejsMainThread`
(`none` for a thread object that is not joinable), the value of the environment variable
`NODE_PATH` (`none` when unset), the threads created so far, each running
`nodejs_main(argc, argv)`, and the lines printed. `nodejsMainThreadMutex` carries no data. -/
structure Launcher where
  nodejsMainThread : Option MainThread
  NODE_PATH : Option CppString
  threads : List MainThread
  stdout : List String
deriving DecidableEq

/-- A process in which `start` has not been called and `NODE_PATH` is unset. -/
def Launcher.fresh : Launcher :=
  { nodejsMainThread := none, NODE_PATH := none, threads := [], stdout := [] }

/-- The call `getenv("NODE_PATH")`: the C string at the pointer returned, `none` for
`nullptr`. -/
def getenv_NODE_PATH (l : Launcher) : Option CppString :=
  l.NODE_PATH.map c_str

/-- The call `setenv("NODE_PATH", value.c_str(), 1)`; the environment takes the value. -/
def setenv_NODE_PATH (value : CppString) (l : Launcher) : Launcher :=
  { l with NODE_PATH := some (c_str value) }

/-- The constant `std::numeric_limits<int>::max()`. -/
def INT_MAX : Nat := 2147483647

/-- The constant `sizeof(int)`. -/
def sizeof_int : Nat := 4

/-- The bound `(size_t)(std::numeric_limits<int>::max() - (2 + sizeof(int)))` of `start`:
`2 + sizeof(int)` is a `size_t`, so the `int` is converted and the subtraction is unsigned. -/
def argsLimit : Nat :=
  (INT_MAX % 2 ^ 64 + 2 ^ 64 - (2 + sizeof_int) % 2 ^ 64) % 2 ^ 64

/-- The conversion `(int)n` of a `size_t`. -/
def int_cast (n : Nat) : Int :=
  if n % 2 ^ 32 < 2 ^ 31 then ((n % 2 ^ 32 : Nat) : Int) else ((n % 2 ^ 32 : Nat) : Int) - 2 ^ 32

/-- The second loop over `options.modulePaths` in `start`: `nodePath += path`, then a colon
unless this is the last path. `size` is `options.modulePaths.size()`, which is not `0` here. -/
def nodePathLoop (size : Nat) : List CppString → CppString → Nat → CppString
  | [], nodePath, _ => nodePath
  | path :: rest, nodePath, index =>
    nodePathLoop size rest
      (if index < size - 1 then nodePath ++ path ++ [':'] else nodePath ++ path) (index + 1)

/-- The block of `start` that sets the environment variable, entered when
`options.modulePaths.size() > 0`.  (The length computed for `reserve` does not bear on the
value.) -/
def setNodePath (modulePaths : List CppString) (l : Launcher) : Launcher :=
  let prevNodePathStr := getenv_NODE_PATH l
  let prevNodePathLen :=
    match prevNodePathStr with
    | some prev => prev.length
    | none => 0
  let nodePath := nodePathLoop modulePaths.length modulePaths [] 0
  let nodePath :=
    if prevNodePathLen > 0 then nodePath ++ [':'] ++ (prevNodePathStr.getD []).take prevNodePathLen
    else nodePath
  setenv_NODE_PATH nodePath l

/-- The three entries `start` puts in front of `options.args`. -/
def bootstrapArgs : List CppString :=
  ["node".toList, "-e".toList,
    ("\nconst native_embed = process.binding(\"__native_embed\");\n" ++
      "console.log(Object.getOwnPropertyDescriptors(native_embed));\n").toList]

/-- The call `std::strcpy(argsData + dest, src.data())`: the C string and its terminator are
written at `dest`; `none` when the write would leave the buffer. -/
def strcpy (argsData : List Char) (dest : Nat) (src : CppString) : Option (List Char) :=
  if dest + ((c_str src).length + 1) ≤ argsData.length then
    some (argsData.take dest ++ (c_str src ++ [NUL]) ++
      argsData.drop (dest + ((c_str src).length + 1)))
  else none

/-- The copy loop of `start`: `strcpy`, `argv[argIndex] = argsDataPtr`, then the pointer
moves on by `arg.length() + 1`. -/
def packLoop : List CppString → List Char → Nat → List Nat → Option (List Char × List Nat)
  | [], argsData, _, argv => some (argsData, argv)
  | arg :: rest, argsData, argsDataPtr, argv =>
    match strcpy argsData argsDataPtr arg with
    | none => none
    | some argsData1 =>
      packLoop rest argsData1 (argsDataPtr + (arg.length + 1)) (argv ++ [argsDataPtr])

/-- The assembly of the argument vector in `start`: the buffer of `argsDataSize` chars, which
`std::make_unique<char[]>` zeroes, and the copy loop. -/
def packArgs (args : List CppString) : Option (List Char × List Nat) :=
  let argsDataSize := (args.map (fun arg => arg.length + 1)).sum
  packLoop args (List.replicate argsDataSize NUL) 0 []

/-- The C string read at the pointer `p` into the buffer, as the engine reads `argv[i]`. -/
def readCString (argsData : List Char) (p : Nat) : CppString :=
  c_str (argsData.drop p)

/-- Source function `start`.  `none` stands for a write outside the buffer `argsData`. -/
def start (options : StartOptions) (l : Launcher) : Option (Except Error Unit × Launcher) :=
  if l.nodejsMainThread.isSome then
    some (.error .AlreadyStarted, l)
  else if options.args.length ≥ argsLimit then
    some (.error .ArgumentOverflow, l)
  else
    let l1 := if options.modulePaths.length > 0 then setNodePath options.modulePaths l else l
    let args := bootstrapArgs ++ options.args
    match packArgs args with
    | none => none
    | some (argsData, argv) =>
      let thread : MainThread :=
        { argsData := argsData, argv := argv, argc := int_cast args.length }
      some (.ok (), { l1 with nodejsMainThread := some thread, threads := l1.threads ++ [thread] })

/-- Source function `nodejs_main`, from the return of `node::Start` on; `exitCode` is what
`node::Start` returned. -/
def nodejs_main (exitCode : Int) (l : Launcher) : Launcher :=
  { l with stdout := l.stdout ++ ["NodeJS exited with code " ++ toString exitCode ++ "\n"] }

/-- The whole process: the launcher and the loops. -/
structure Process (Fn : Type) where
  launcher : Launcher
  config : Config Fn

/-- Everything the program does: a call of `start`, the return of `node::Start` in a launch
thread, a transition of the loops, and a call of `NativeModule_send` or
`NativeModule_setReciever`, which return `nullptr` and write to no global. -/
inductive ProcessStep (Fn : Type) where
  | start (options : StartOptions)
  | nodejs_main (exitCode : Int)
  | loop (st : Step Fn)
  | NativeModule_send
  | NativeModule_setReciever

/-- One transition of the process. -/
def processStep (p : Process Fn) : ProcessStep Fn → Process Fn
  | .start options =>
    match start options p.launcher with
    | some (_, l) => { p with launcher := l }
    | none => p
  | .nodejs_main exitCode => { p with launcher := nodejs_main exitCode p.launcher }
  | .loop st => { p with config := step p.config st }
  | .NativeModule_send => p
  | .NativeModule_setReciever => p

/-- The transitions of a list, in order. -/
def processRun (p : Process Fn) (tr : List (ProcessStep Fn)) : Process Fn :=
  tr.foldl processStep p

/-- What the copy loop leaves in the `arg.length() + 1` chars it reserves for one argument:
the C string, its terminator, and the zeroes of the fresh buffer behind it. -/
def padded (arg : CppString) : List Char :=
  c_str arg ++ NUL :: List.replicate (arg.length - (c_str arg).length) NUL

/-- The packing as the spec words it: each entry starts where the one before it, with its
terminator, ends. -/
def offsets : Nat → List CppString → List Nat
  | _, [] => []
  | first, arg :: rest => first :: offsets (first + (arg.length + 1)) rest

/-- The state a call of `start` leaves when it launches the engine. -/
def launched (options : StartOptions) (l : Launcher) : Launcher :=
  let l1 := if options.modulePaths.length > 0 then setNodePath options.modulePaths l else l
  let thread : MainThread :=
    { argsData := ((bootstrapArgs ++ options.args).map padded).flatten
      argv := offsets 0 (bootstrapArgs ++ options.args)
      argc := int_cast (bootstrapArgs ++ options.args).length }
  { l1 with nodejsMainThread := some thread, threads := l1.threads ++ [thread] }

/-- An example of a process in which `start` has succeeded. -/
def startedOnce : Launcher :=
  launched { args := ["main.js".toList], modulePaths := ["/lib".toList] } Launcher.fresh

/-- The colon-joined list `p1:p2:...:pn` of the module paths. -/
def colonJoined : List CppString → CppString
  | [] => []
  | [path] => path
  | path :: rest => path ++ ':' :: colonJoined rest

/-- The registry as the spec words it, entries being (address, native handle): a loop that
starts is appended at the tail, a teardown removes the loop that has the handle, nothing else
changes it.  (`new` returns the address of no registered loop, see `step`.) -/
def registrySpecStep (reg : List (Nat × Nat)) : Step Fn → List (Nat × Nat)
  | .init e =>
    if e.registers ∧ e.nodeLoop ∉ reg.map Prod.fst then reg ++ [(e.nodeLoop, e.uvLoop)] else reg
  | .cleanup uvLoop => reg.filter (fun x => x.2 != uvLoop)
  | _ => reg

/-- The loops currently registered after a trace, in the order they were registered. -/
def registrySpec (tr : List (Step Fn)) : List (Nat × Nat) :=
  tr.foldl registrySpecStep []

/-- The registry of the code and the registry of the spec agree: same addresses in the same
order, and each address holds the handle the spec lists. -/
def Agrees (c : Config Fn) (reg : List (Nat × Nat)) : Prop :=
  c.state.nodejsEventLoops = reg.map Prod.fst ∧ ∀ x ∈ reg, c.state.uvLoop x.1 = some x.2

/-! ## The functions, one by one -/

theorem checkLoopValid_iff (s : State Fn) (loop : Nat) :
    checkLoopValid s loop = true ↔ loop ∈ s.nodejsEventLoops := by
  simp [checkLoopValid]

theorem executed_append (s : State Fn) (cs : List (Call Fn)) :
    executed { s with calls := s.calls ++ cs } = executed s ++ executed { s with calls := cs } := by
  simp [executed, List.filterMap_append]

theorem queue_invalid (loop : Nat) (work : Fn) (result : napi_status) (s : State Fn)
    (h : loop ∉ s.nodejsEventLoops) :
    queue loop work result s = (.error .InvalidLoop, s) := by
  have hv : checkLoopValid s loop = false := by
    rw [← Bool.not_eq_true, checkLoopValid_iff]; exact h
  simp [queue, hv]

theorem queue_state (loop : Nat) (work : Fn) (result : napi_status) (s : State Fn)
    (l : EventLoop Fn) (h : loop ∈ s.nodejsEventLoops) (hl : s.heap loop = some l) :
    (queue loop work result s).2 =
      { heap := Function.update s.heap loop
          (some { l with queuedWork := l.queuedWork ++ [{ work := work }] })
        nodejsEventLoops := s.nodejsEventLoops
        calls := s.calls ++ [.napi_call_threadsafe_function l.queueFunction] } := by
  have hv : checkLoopValid s loop = true := (checkLoopValid_iff s loop).2 h
  unfold queue
  simp only [hv, Bool.not_true, Bool.false_eq_true, if_false]
  split <;> simp [State.call, State.store, State.queueFunction, hl]

theorem queue_result (loop : Nat) (work : Fn) (result : napi_status) (s : State Fn)
    (h : loop ∈ s.nodejsEventLoops) :
    (queue loop work result s).1 =
      if result = .napi_ok ∨ result = .napi_queue_full then .ok ()
      else .error (.ActivationFailure result) := by
  have hv : checkLoopValid s loop = true := (checkLoopValid_iff s loop).2 h
  unfold queue
  simp only [hv, Bool.not_true, Bool.false_eq_true, if_false]
  by_cases h1 : result = .napi_ok
  · simp [h1]
  · by_cases h2 : result = .napi_queue_full
    · simp [h2]
    · simp [h1, h2]

theorem queueAll_state (loop : Nat) (ws : List (Fn × napi_status)) :
    ∀ (s : State Fn) (l : EventLoop Fn), loop ∈ s.nodejsEventLoops → s.heap loop = some l →
      queueAll loop ws s =
        { heap := Function.update s.heap loop
            (some { l with
              queuedWork := l.queuedWork ++ ws.map (fun x => { work := x.1 }) })
          nodejsEventLoops := s.nodejsEventLoops
          calls := s.calls ++
            ws.map (fun _ => Call.napi_call_threadsafe_function l.queueFunction) } := by
  induction ws with
  | nil =>
    intro s l _ hl
    simp [queueAll, ← hl]
  | cons x ws ih =>
    intro s l h hl
    have hq := queue_state loop x.1 x.2 s l h hl
    have := ih (queue loop x.1 x.2 s).2
      { l with queuedWork := l.queuedWork ++ [{ work := x.1 }] }
      (by rw [hq]; exact h) (by rw [hq]; simp)
    simp only [queueAll, List.foldl_cons] at this ⊢
    rw [this, hq]
    simp

theorem foldl_item (eventLoop : Nat) (items : List (EventLoopWork Fn)) :
    ∀ s : State Fn, items.foldl (handleLoopQueue_item eventLoop) s =
      { s with calls := s.calls ++ items.map (fun i => Call.work eventLoop i.work) } := by
  induction items with
  | nil => intro s; simp
  | cons i items ih =>
    intro s
    simp [ih, handleLoopQueue_item, State.call]

theorem handleLoopQueue_state (eventLoop : Nat) (s : State Fn) (l : EventLoop Fn)
    (hl : s.heap eventLoop = some l) :
    handleLoopQueue .napi_ok eventLoop s =
      { heap := Function.update s.heap eventLoop (some { l with queuedWork := [] })
        nodejsEventLoops := s.nodejsEventLoops
        calls := s.calls ++ l.queuedWork.map (fun i => Call.work eventLoop i.work) } := by
  simp [handleLoopQueue, NAPI_CALL, handleLoopQueue_swap, foldl_item, State.store,
    State.queuedWork, hl]

theorem executed_work (eventLoop : Nat) (s : State Fn) (items : List Fn) :
    executed { s with calls := items.map (fun i => Call.work eventLoop i) } =
      items.map (fun i => (eventLoop, i)) := by
  induction items with
  | nil => simp [executed]
  | cons i items ih =>
    simp only [executed] at ih
    simp [executed, ih]

theorem executed_signals (s : State Fn) (fs : List Nat) :
    executed { s with calls := fs.map (fun f => Call.napi_call_threadsafe_function f) } = [] := by
  induction fs with
  | nil => simp [executed]
  | cons i items ih =>
    simp only [executed] at ih
    simp [executed, ih]

/-! ## Threads appending to one loop -/

theorem flatten_set_perm {α : Type} (w : α) (rest : List α) :
    ∀ (ts : List (List α)) (t : Nat), ts[t]? = some (w :: rest) →
      List.Perm ts.flatten (w :: (ts.set t rest).flatten) := by
  intro ts
  induction ts with
  | nil => intro t h; simp at h
  | cons u ts ih =>
    intro t h
    cases t with
    | zero =>
      simp at h
      subst h
      simp
    | succ t =>
      simp at h
      have := ih t h
      simp only [List.set_cons_succ, List.flatten_cons]
      exact (List.Perm.append_left u this).trans List.perm_middle

theorem flatten_eq_nil_of_forall {α : Type} (ts : List (List α)) (h : ∀ u ∈ ts, u = []) :
    ts.flatten = [] := by
  induction ts with
  | nil => rfl
  | cons u ts ih =>
    have hu : u = [] := h u (by simp)
    have := ih (fun v hv => h v (by simp [hv]))
    simp [hu, this]

theorem runThreads_spec (loop : Nat) (sched : List (Nat × napi_status)) :
    ∀ (ts : List (List Fn)) (s : State Fn),
      ∃ ws : List (Fn × napi_status),
        (runThreads loop ts sched s).2 = queueAll loop ws s ∧
        (∀ x ∈ ws, x.2 ∈ sched.map Prod.snd) ∧
        List.Perm ts.flatten
          (ws.map Prod.fst ++ (runThreads loop ts sched s).1.flatten) ∧
        ((∀ u ∈ (runThreads loop ts sched s).1, u = []) →
          ∀ u ∈ ts, List.Sublist u (ws.map Prod.fst)) := by
  induction sched with
  | nil =>
    intro ts s
    refine ⟨[], by simp [runThreads, queueAll], by simp, by simp [runThreads], ?_⟩
    intro h u hu
    simp only [runThreads] at h
    simp [h u hu]
  | cons x sched ih =>
    intro ts s
    obtain ⟨t, r⟩ := x
    cases hget : ts[t]? with
    | none =>
      obtain ⟨ws, h1, h2, h3, h4⟩ := ih ts s
      refine ⟨ws, ?_, ?_, ?_, ?_⟩
      · simpa [runThreads, hget] using h1
      · intro y hy
        simp only [List.map_cons, List.mem_cons]
        exact Or.inr (h2 y hy)
      · simpa [runThreads, hget] using h3
      · simpa [runThreads, hget] using h4
    | some u =>
      cases u with
      | nil =>
        obtain ⟨ws, h1, h2, h3, h4⟩ := ih ts s
        refine ⟨ws, ?_, ?_, ?_, ?_⟩
        · simpa [runThreads, hget] using h1
        · intro y hy
          simp only [List.map_cons, List.mem_cons]
          exact Or.inr (h2 y hy)
        · simpa [runThreads, hget] using h3
        · simpa [runThreads, hget] using h4
      | cons w rest =>
        obtain ⟨ws, h1, h2, h3, h4⟩ := ih (ts.set t rest) (queue loop w r s).2
        have hrun : runThreads loop ts ((t, r) :: sched) s =
            runThreads loop (ts.set t rest) sched (queue loop w r s).2 := by
          simp [runThreads, hget]
        refine ⟨(w, r) :: ws, ?_, ?_, ?_, ?_⟩
        · rw [hrun, h1]; simp [queueAll]
        · intro y hy
          simp only [List.mem_cons] at hy
          rcases hy with hy | hy
          · subst hy; simp
          · simp only [List.map_cons, List.mem_cons]
            exact Or.inr (h2 y hy)
        · rw [hrun]
          refine (flatten_set_perm w rest ts t hget).trans ?_
          simpa using h3
        · rw [hrun]
          intro hall u hu
          have h4 := h4 hall
          obtain ⟨i, hi, rfl⟩ := List.mem_iff_getElem.1 hu
          by_cases hit : t = i
          · subst hit
            have hw : ts[t] = w :: rest := by
              have := List.getElem?_eq_getElem hi
              rw [hget] at this
              exact (Option.some.inj this).symm
            rw [hw]
            have hmem : rest ∈ ts.set t rest := by
              refine List.mem_iff_getElem.2 ⟨t, by simpa using hi, ?_⟩
              simp
            simpa using (h4 rest hmem).cons₂ w
          · have hmem : ts[i] ∈ ts.set t rest := by
              refine List.mem_iff_getElem.2 ⟨i, by simpa using hi, ?_⟩
              simp [List.getElem_set, hit]
            simpa using (h4 _ hmem).cons w

/-! ## Per-loop FIFO -/

/-- C1: on a registered loop whose pending queue is empty (as a drain pass leaves it), after
the calls `queue(loop, w1) ... queue(loop, wk)` whose signals answer ok or queue-full, every
call has returned normally and one drain pass calls exactly `w1 ... wk`, each once and in the
order of the appends, and leaves the pending queue empty.  In particular, when the threads
`ts`, each with `K` items, have made all their calls in any interleaving, the pass runs
`ts.length * K` items, exactly the items of the threads, and the items of each thread in
the order the thread gave them. -/
theorem per_loop_fifo (s : State Fn) (loop : Nat) (l : EventLoop Fn)
    (hreg : loop ∈ s.nodejsEventLoops) (hl : s.heap loop = some l) (hq : l.queuedWork = []) :
    (∀ ws : List (Fn × napi_status),
      (∀ x ∈ ws, x.2 = .napi_ok ∨ x.2 = .napi_queue_full) →
      (∀ pre x post, ws = pre ++ x :: post →
        (queue loop x.1 x.2 (queueAll loop pre s)).1 = .ok ()) ∧
      (handleLoopQueue .napi_ok loop (queueAll loop ws s)).calls =
        (queueAll loop ws s).calls ++ ws.map (fun x => Call.work loop x.1) ∧
      executed (handleLoopQueue .napi_ok loop (queueAll loop ws s)) =
        executed s ++ ws.map (fun x => (loop, x.1)) ∧
      (handleLoopQueue .napi_ok loop (queueAll loop ws s)).queuedWork loop = []) ∧
    (∀ (ts : List (List Fn)) (K : Nat) (sched : List (Nat × napi_status)),
      (∀ t ∈ ts, t.length = K) →
      (∀ x ∈ sched, x.2 = .napi_ok ∨ x.2 = .napi_queue_full) →
      (∀ u ∈ (runThreads loop ts sched s).1, u = []) →
      ∃ ex : List Fn,
        executed (handleLoopQueue .napi_ok loop (runThreads loop ts sched s).2) =
          executed s ++ ex.map (fun w => (loop, w)) ∧
        ex.length = ts.length * K ∧
        List.Perm ex ts.flatten ∧
        (∀ t ∈ ts, List.Sublist t ex) ∧
        (handleLoopQueue .napi_ok loop (runThreads loop ts sched s).2).queuedWork loop = []) := by
  have key : ∀ ws : List (Fn × napi_status),
      (handleLoopQueue .napi_ok loop (queueAll loop ws s)).calls =
        (queueAll loop ws s).calls ++ ws.map (fun x => Call.work loop x.1) ∧
      executed (handleLoopQueue .napi_ok loop (queueAll loop ws s)) =
        executed s ++ ws.map (fun x => (loop, x.1)) ∧
      (handleLoopQueue .napi_ok loop (queueAll loop ws s)).queuedWork loop = [] := by
    intro ws
    have hqa := queueAll_state loop ws s l hreg hl
    have hh := handleLoopQueue_state loop (queueAll loop ws s)
      { l with queuedWork := l.queuedWork ++ ws.map (fun x => { work := x.1 }) }
      (by rw [hqa]; simp)
    refine ⟨?_, ?_, ?_⟩
    · rw [hh]; simp [hq, Function.comp_def]
    · rw [hh, hqa]
      have e1 := @executed_append Fn
        { heap := Function.update s.heap loop
            (some { l with queuedWork := l.queuedWork ++ ws.map (fun x => { work := x.1 }) })
          nodejsEventLoops := s.nodejsEventLoops
          calls := s.calls }
        (ws.map (fun _ => Call.napi_call_threadsafe_function l.queueFunction) ++
          ws.map (fun x => Call.work loop x.1))
      have e2 := executed_signals s (ws.map (fun _ => l.queueFunction))
      have e3 := executed_work loop s (ws.map Prod.fst)
      simp only [executed, List.filterMap_append, List.map_map, Function.comp_def,
        List.append_assoc, hq, List.nil_append] at e1 e2 e3 ⊢
      rw [e2, e3]
      simp
    · rw [hh]; simp [State.queuedWork]
  refine ⟨?_, ?_⟩
  · intro ws hacc
    refine ⟨?_, key ws⟩
    intro pre x post hws
    have hqa := queueAll_state loop pre s l hreg hl
    rw [queue_result loop x.1 x.2 _ (by rw [hqa]; exact hreg)]
    have := hacc x (by rw [hws]; simp)
    simp [this]
  · intro ts K sched hK _ hdone
    obtain ⟨ws, h1, _, h3, h4⟩ := runThreads_spec loop sched ts s
    have hperm : List.Perm ts.flatten (ws.map Prod.fst) := by
      simpa [flatten_eq_nil_of_forall _ hdone] using h3
    obtain ⟨_, k2, k3⟩ := key ws
    refine ⟨ws.map Prod.fst, ?_, ?_, hperm.symm, h4 hdone, ?_⟩
    · rw [h1, k2]; simp [Function.comp_def]
    · rw [← hperm.length_eq, List.length_flatten]
      have : ts.map List.length = List.replicate ts.length K := by
        rw [List.eq_replicate_iff]
        simpa using hK
      rw [this]; simp
    · rw [h1]; exact k3

/-- C1 at the example registry: two calls to loop 1, the second on a saturated channel, and
one drain pass; then two threads with two items each, interleaved. -/
theorem per_loop_fifo_witness :
    (1 ∈ twoLoops.nodejsEventLoops ∧
      twoLoops.heap 1 =
        some { uvLoop := 11, threadId := 1, queuedWork := [], queueFunction := 21 }) ∧
    executed (handleLoopQueue .napi_ok 1
        (queueAll 1 [(5, .napi_ok), (6, .napi_queue_full)] twoLoops)) = [(1, 5), (1, 6)] ∧
    (∃ ex : List Nat,
      executed (handleLoopQueue .napi_ok 1 (runThreads 1 [[5, 6], [7, 8]]
        [(0, .napi_ok), (1, .napi_ok), (1, .napi_queue_full), (0, .napi_ok)] twoLoops).2) =
          executed twoLoops ++ ex.map (fun w => (1, w)) ∧
      ex.length = 2 * 2 ∧ List.Sublist [5, 6] ex ∧ List.Sublist [7, 8] ex) := by
  have h := per_loop_fifo twoLoops 1
    { uvLoop := 11, threadId := 1, queuedWork := [], queueFunction := 21 }
    (by decide) rfl rfl
  refine ⟨⟨by decide, rfl⟩, ?_, ?_⟩
  · have h1 := (h.1 [(5, .napi_ok), (6, .napi_queue_full)] (by decide)).2.2.1
    simpa [executed, twoLoops] using h1
  · obtain ⟨ex, h1, h2, _, h4, _⟩ := h.2 [[5, 6], [7, 8]] 2
      [(0, .napi_ok), (1, .napi_ok), (1, .napi_queue_full), (0, .napi_ok)]
      (by decide) (by decide) (by decide)
    exact ⟨ex, h1, h2, h4 _ (by simp), h4 _ (by simp)⟩

/-! ## Registration and teardown -/

theorem init_registers (e : InitCalls) (s : State Fn) (h : e.registers) :
    (NativeModule_init e s).2 =
      { heap := Function.update s.heap e.nodeLoop (some e.entity)
        nodejsEventLoops := s.nodejsEventLoops ++ [e.nodeLoop]
        calls := s.calls } := by
  obtain ⟨h1, h2, h3, h4, h5⟩ := h
  unfold NativeModule_init
  simp only [NAPI_CALL_ELSE, NAPI_CALL, h1, h2, h3, h4, h5, if_true]
  split <;>
    simp [State.store, State.new, InitCalls.entity]

theorem init_fails (e : InitCalls) (s : State Fn) (h : ¬ e.registers) :
    ∃ cs : List (Call Fn),
      (∀ c ∈ cs, ∃ f, c = Call.napi_release_threadsafe_function f) ∧
      NativeModule_init e s =
        (false,
          { heap := Function.update s.heap e.nodeLoop none
            nodejsEventLoops := s.nodejsEventLoops
            calls := s.calls ++ cs }) := by
  unfold InitCalls.registers at h
  unfold NativeModule_init
  simp only [NAPI_CALL_ELSE]
  by_cases h1 : e.get_uv_event_loop = .napi_ok
  · by_cases h2 : e.create_function = .napi_ok
    · by_cases h3 : e.create_string_utf8 = .napi_ok
      · by_cases h4 : e.create_threadsafe_function = .napi_ok
        · have h5 : e.add_env_cleanup_hook ≠ .napi_ok := fun h5 => h ⟨h1, h2, h3, h4, h5⟩
          refine ⟨[.napi_release_threadsafe_function e.queueFunction], by simp, ?_⟩
          simp [h1, h2, h3, h4, h5, State.store, State.new, State.delete, State.call,
            State.queueFunction]
        · exact ⟨[], by simp, by
            simp [h1, h2, h3, h4, State.store, State.new, State.delete]⟩
      · exact ⟨[], by simp, by simp [h1, h2, h3, State.store, State.new, State.delete]⟩
    · exact ⟨[], by simp, by simp [h1, h2, State.store, State.new, State.delete]⟩
  · exact ⟨[], by simp, by simp [h1, State.store, State.new, State.delete]⟩

theorem cleanup_absent (uvLoop : Nat) (s : State Fn) (h : getEventLoop s uvLoop = none) :
    NativeModule_main_cleanup uvLoop s = s := by
  unfold getEventLoop at h
  simp [NativeModule_main_cleanup, h]

theorem cleanup_found (uvLoop loop : Nat) (s : State Fn)
    (h : getEventLoop s uvLoop = some loop) :
    ∃ cs : List (Call Fn),
      (∀ c ∈ cs, ∃ f, c = Call.napi_release_threadsafe_function f) ∧
      NativeModule_main_cleanup uvLoop s =
        { heap := Function.update s.heap loop none
          nodejsEventLoops := s.nodejsEventLoops.eraseP (hasUvLoop s uvLoop)
          calls := s.calls ++ cs } := by
  unfold getEventLoop at h
  by_cases hf : s.queueFunction loop = 0
  · exact ⟨[], by simp, by simp [NativeModule_main_cleanup, h, hf, State.delete]⟩
  · exact ⟨[.napi_release_threadsafe_function (s.queueFunction loop)], by simp, by
      simp [NativeModule_main_cleanup, h, hf, State.delete, State.call]⟩

theorem executed_releases (s : State Fn) (cs : List (Call Fn))
    (h : ∀ c ∈ cs, ∃ f, c = Call.napi_release_threadsafe_function f) :
    executed { s with calls := s.calls ++ cs } = executed s := by
  induction cs with
  | nil => simp [executed]
  | cons c cs ih =>
    obtain ⟨f, rfl⟩ := h c (by simp)
    have := ih (fun c hc => h c (by simp [hc]))
    simp only [executed, List.filterMap_append] at this ⊢
    simpa using this

theorem getEventLoop_some (s : State Fn) (uvLoop loop : Nat)
    (h : getEventLoop s uvLoop = some loop) :
    loop ∈ s.nodejsEventLoops ∧ s.uvLoop loop = some uvLoop := by
  unfold getEventLoop at h
  refine ⟨List.mem_of_find?_eq_some h, ?_⟩
  have := List.find?_some h
  simpa [hasUvLoop] using this

/-! ## What one transition does to the queues, the claimed lists and the executed items -/

theorem eraseP_eq_erase_of_find {α : Type} [DecidableEq α] (q : α → Bool) (a : α) :
    ∀ l : List α, l.find? q = some a → l.eraseP q = l.erase a := by
  intro l
  induction l with
  | nil => intro h; simp at h
  | cons x l ih =>
    intro h
    by_cases hx : q x = true
    · have hxa : x = a := by simpa [List.find?_cons, hx] using h
      subst hxa
      simp [List.eraseP_cons, hx]
    · have hne : x ≠ a := by
        rintro rfl
        exact hx (List.find?_some h)
      have h2 : l.find? q = some a := by simpa [List.find?_cons, hx] using h
      simp [List.eraseP_cons, hx, List.erase_cons, hne, ih h2]

theorem step_queue_obs (c : Config Fn) (loop : Nat) (work : Fn) (result : napi_status) :
    (step c (.queue loop work result)).claimed = c.claimed ∧
    executed (step c (.queue loop work result)).state = executed c.state ∧
    (step c (.queue loop work result)).state.nodejsEventLoops = c.state.nodejsEventLoops ∧
    (∀ q, (step c (.queue loop work result)).state.uvLoop q = c.state.uvLoop q) ∧
    (∀ q, (step c (.queue loop work result)).state.queuedWork q =
      if loop ∈ c.state.nodejsEventLoops ∧ q = loop ∧ (c.state.heap loop).isSome then
        c.state.queuedWork q ++ [{ work := work }]
      else c.state.queuedWork q) := by
  have e : step c (.queue loop work result) =
      { c with state := (queue loop work result c.state).2 } := rfl
  rw [e]
  by_cases hreg : loop ∈ c.state.nodejsEventLoops
  · cases hl : c.state.heap loop with
    | none =>
      have hv : checkLoopValid c.state loop = true := (checkLoopValid_iff _ _).2 hreg
      have hs : (queue loop work result c.state).2 =
          { c.state with calls := c.state.calls ++ [.napi_call_threadsafe_function 0] } := by
        unfold queue
        simp only [hv, Bool.not_true, Bool.false_eq_true, if_false]
        have hu : Function.update c.state.heap loop none = c.state.heap := by
          rw [← hl]; exact Function.update_eq_self _ _
        split <;> simp [State.call, State.store, State.queueFunction, hl, hu]
      rw [hs]
      refine ⟨rfl, ?_, rfl, fun q => rfl, ?_⟩
      · simp [executed, List.filterMap_append]
      · intro q; simp [State.queuedWork]
    | some l =>
      have hs := queue_state loop work result c.state l hreg hl
      rw [hs]
      refine ⟨rfl, ?_, rfl, ?_, ?_⟩
      · simp [executed, List.filterMap_append]
      · intro q
        by_cases hq : q = loop
        · subst hq; simp [State.uvLoop, hl]
        · simp [State.uvLoop, Function.update_noteq hq]
      · intro q
        by_cases hq : q = loop
        · subst hq; simp [State.queuedWork, hl, hreg]
        · simp [State.queuedWork, Function.update_noteq hq, hq]
  · have hs := queue_invalid loop work result c.state hreg
    rw [hs]
    exact ⟨rfl, rfl, rfl, fun q => rfl, fun q => by simp [hreg]⟩

theorem step_queueMain_eq (c : Config Fn) (work : Fn) (result : napi_status) :
    step c (.queueMain work result) =
      match getMainEventLoop c.state with
      | none => c
      | some mainLoop => step c (.queue mainLoop work result) := by
  cases h : getMainEventLoop c.state <;> simp [step, queueMain, h]

theorem step_swap_obs (c : Config Fn) (eventLoop : Nat)
    (h : c.state.heap eventLoop ≠ none ∧ c.claimed eventLoop = []) :
    (step c (.swap eventLoop)).claimed =
      Function.update c.claimed eventLoop (c.state.queuedWork eventLoop) ∧
    executed (step c (.swap eventLoop)).state = executed c.state ∧
    (step c (.swap eventLoop)).state.nodejsEventLoops = c.state.nodejsEventLoops ∧
    (∀ q, (step c (.swap eventLoop)).state.uvLoop q = c.state.uvLoop q) ∧
    (∀ q, (step c (.swap eventLoop)).state.queuedWork q =
      if q = eventLoop then [] else c.state.queuedWork q) := by
  obtain ⟨h1, h2⟩ := h
  obtain ⟨l, hl⟩ := Option.ne_none_iff_exists'.1 h1
  have hg : ((c.state.heap eventLoop).isSome && (c.claimed eventLoop).isEmpty) = true := by
    simp [hl, h2]
  have e : step c (.swap eventLoop) =
      { state := c.state.store eventLoop (fun l => { l with queuedWork := [] })
        claimed := Function.update c.claimed eventLoop (c.state.queuedWork eventLoop) } := by
    simp [step, hg, handleLoopQueue_swap]
  rw [e]
  refine ⟨rfl, rfl, rfl, ?_, ?_⟩
  · intro q
    by_cases hq : q = eventLoop
    · subst hq; simp [State.uvLoop, State.store, hl]
    · simp [State.uvLoop, State.store, Function.update_noteq hq]
  · intro q
    by_cases hq : q = eventLoop
    · subst hq; simp [State.queuedWork, State.store, hl]
    · simp [State.queuedWork, State.store, Function.update_noteq hq, hq]

theorem step_swap_idle (c : Config Fn) (eventLoop : Nat)
    (h : ¬ (c.state.heap eventLoop ≠ none ∧ c.claimed eventLoop = [])) :
    step c (.swap eventLoop) = c := by
  have hg : ((c.state.heap eventLoop).isSome && (c.claimed eventLoop).isEmpty) = false := by
    cases hl : c.state.heap eventLoop with
    | none => simp
    | some l =>
      have : c.claimed eventLoop ≠ [] := fun h2 => h ⟨by simp [hl], h2⟩
      simp [List.isEmpty_iff, this]
  simp [step, hg]

theorem step_exec_cons (c : Config Fn) (eventLoop : Nat) (item : EventLoopWork Fn)
    (rest : List (EventLoopWork Fn)) (h : c.claimed eventLoop = item :: rest) :
    (step c (.exec eventLoop)).claimed = Function.update c.claimed eventLoop rest ∧
    executed (step c (.exec eventLoop)).state = executed c.state ++ [(eventLoop, item.work)] ∧
    (step c (.exec eventLoop)).state.nodejsEventLoops = c.state.nodejsEventLoops ∧
    (step c (.exec eventLoop)).state.heap = c.state.heap := by
  have e : step c (.exec eventLoop) =
      { state := { c.state with calls := c.state.calls ++ [.work eventLoop item.work] }
        claimed := Function.update c.claimed eventLoop rest } := by
    simp [step, h, handleLoopQueue_item, State.call]
  rw [e]
  refine ⟨rfl, ?_, rfl, rfl⟩
  simp [executed, List.filterMap_append]

theorem step_exec_nil (c : Config Fn) (eventLoop : Nat) (h : c.claimed eventLoop = []) :
    step c (.exec eventLoop) = c := by
  simp [step, h]

theorem step_init_obs (c : Config Fn) (e : InitCalls) :
    (step c (.init e)).claimed = c.claimed ∧
    executed (step c (.init e)).state = executed c.state ∧
    (∀ q, c.state.heap q ≠ none → (step c (.init e)).state.uvLoop q = c.state.uvLoop q) ∧
    (∀ q, (step c (.init e)).state.queuedWork q = c.state.queuedWork q) := by
  cases hl : c.state.heap e.nodeLoop with
  | some l =>
    have e1 : step c (.init e) = c := by simp [step, hl]
    rw [e1]
    exact ⟨rfl, rfl, fun _ _ => rfl, fun _ => rfl⟩
  | none =>
    have e1 : step c (.init e) = { c with state := (NativeModule_init e c.state).2 } := by
      simp [step, hl]
    rw [e1]
    by_cases hr : e.registers
    · rw [init_registers e c.state hr]
      refine ⟨rfl, rfl, ?_, ?_⟩
      · intro q hq
        have hne : q ≠ e.nodeLoop := by rintro rfl; exact hq hl
        simp [State.uvLoop, Function.update_noteq hne]
      · intro q
        by_cases hq : q = e.nodeLoop
        · subst hq; simp [State.queuedWork, hl, InitCalls.entity]
        · simp [State.queuedWork, Function.update_noteq hq]
    · obtain ⟨cs, hcs, hs⟩ := init_fails e c.state hr
      rw [hs]
      refine ⟨rfl, executed_releases c.state cs hcs, ?_, ?_⟩
      · intro q hq
        have hne : q ≠ e.nodeLoop := by rintro rfl; exact hq hl
        simp [State.uvLoop, Function.update_noteq hne]
      · intro q
        by_cases hq : q = e.nodeLoop
        · subst hq; simp [State.queuedWork, hl]
        · simp [State.queuedWork, Function.update_noteq hq]

theorem step_cleanup_absent (c : Config Fn) (uvLoop : Nat)
    (h : getEventLoop c.state uvLoop = none) : step c (.cleanup uvLoop) = c := by
  simp [step, cleanup_absent uvLoop c.state h]

theorem step_cleanup_found (c : Config Fn) (uvLoop loop : Nat)
    (h : getEventLoop c.state uvLoop = some loop) :
    (step c (.cleanup uvLoop)).claimed = c.claimed ∧
    executed (step c (.cleanup uvLoop)).state = executed c.state ∧
    (step c (.cleanup uvLoop)).state.heap = Function.update c.state.heap loop none ∧
    (step c (.cleanup uvLoop)).state.nodejsEventLoops = c.state.nodejsEventLoops.erase loop := by
  obtain ⟨cs, hcs, hs⟩ := cleanup_found uvLoop loop c.state h
  have e1 : step c (.cleanup uvLoop) =
      { c with state := NativeModule_main_cleanup uvLoop c.state } := rfl
  rw [e1, hs]
  refine ⟨rfl, executed_releases c.state cs hcs, rfl, ?_⟩
  exact eraseP_eq_erase_of_find _ _ _ h

theorem uvLoop_ne_none (s : State Fn) (q : Nat) : s.uvLoop q ≠ none ↔ s.heap q ≠ none := by
  cases h : s.heap q <;> simp [State.uvLoop, h]

/-- Every transition keeps the registry well formed. -/
theorem registered_step (c : Config Fn) (st : Step Fn) (h : Registered c.state) :
    Registered (step c st).state := by
  obtain ⟨hlive, hnd⟩ := h
  have hq : ∀ (loop : Nat) (work : Fn) (result : napi_status),
      Registered (step c (.queue loop work result)).state := by
    intro loop work result
    obtain ⟨_, _, h3, h4, _⟩ := step_queue_obs c loop work result
    refine ⟨?_, by rw [h3]; exact hnd⟩
    intro q hq
    rw [h3] at hq
    rw [← uvLoop_ne_none, h4 q, uvLoop_ne_none]
    exact hlive q hq
  cases st with
  | init e =>
    cases hl : c.state.heap e.nodeLoop with
    | some l =>
      have e1 : step c (.init e) = c := by simp [step, hl]
      rw [e1]; exact ⟨hlive, hnd⟩
    | none =>
      have e1 : step c (.init e) = { c with state := (NativeModule_init e c.state).2 } := by
        simp [step, hl]
      have hfresh : e.nodeLoop ∉ c.state.nodejsEventLoops := fun hm => hlive _ hm hl
      rw [e1]
      by_cases hr : e.registers
      · rw [init_registers e c.state hr]
        refine ⟨?_, ?_⟩
        · intro q hq
          simp only [List.mem_append, List.mem_singleton] at hq
          by_cases hqe : q = e.nodeLoop
          · subst hqe; simp
          · rcases hq with hq | hq
            · simpa [Function.update_noteq hqe] using hlive q hq
            · exact absurd hq hqe
        · exact List.Nodup.append hnd (List.nodup_singleton _) (by simpa using hfresh)
      · obtain ⟨cs, _, hs⟩ := init_fails e c.state hr
        rw [hs]
        refine ⟨?_, hnd⟩
        intro q hq
        have hqe : q ≠ e.nodeLoop := by rintro rfl; exact hfresh hq
        simpa [Function.update_noteq hqe] using hlive q hq
  | queue loop work result => exact hq loop work result
  | queueMain work result =>
    rw [step_queueMain_eq]
    cases hm : getMainEventLoop c.state with
    | none => exact ⟨hlive, hnd⟩
    | some mainLoop => exact hq mainLoop work result
  | swap q =>
    by_cases hg : c.state.heap q ≠ none ∧ c.claimed q = []
    · obtain ⟨_, _, h3, h4, _⟩ := step_swap_obs c q hg
      refine ⟨?_, by rw [h3]; exact hnd⟩
      intro r hr
      rw [h3] at hr
      rw [← uvLoop_ne_none, h4 r, uvLoop_ne_none]
      exact hlive r hr
    · rw [step_swap_idle c q hg]; exact ⟨hlive, hnd⟩
  | exec q =>
    cases hc : c.claimed q with
    | nil => rw [step_exec_nil c q hc]; exact ⟨hlive, hnd⟩
    | cons item rest =>
      obtain ⟨_, _, h3, h4⟩ := step_exec_cons c q item rest hc
      refine ⟨?_, by rw [h3]; exact hnd⟩
      intro r hr
      rw [h3] at hr
      rw [h4]; exact hlive r hr
  | cleanup h =>
    cases hf : getEventLoop c.state h with
    | none => rw [step_cleanup_absent c h hf]; exact ⟨hlive, hnd⟩
    | some loop =>
      obtain ⟨_, _, h3, h4⟩ := step_cleanup_found c h loop hf
      refine ⟨?_, by rw [h4]; exact hnd.erase loop⟩
      intro r hr
      rw [h4] at hr
      have := (List.Nodup.mem_erase_iff hnd).1 hr
      rw [h3, Function.update_noteq this.1]
      exact hlive r this.2

theorem run_append (c : Config Fn) (t1 t2 : List (Step Fn)) :
    run c (t1 ++ t2) = run (run c t1) t2 := by
  simp [run, List.foldl_append]

theorem run_cons (c : Config Fn) (st : Step Fn) (tr : List (Step Fn)) :
    run c (st :: tr) = run (step c st) tr := rfl

theorem appended_append (t1 t2 : List (Step Fn)) :
    ∀ c : Config Fn, appended c (t1 ++ t2) = appended c t1 ++ appended (run c t1) t2 := by
  induction t1 with
  | nil => intro c; simp [appended, run]
  | cons st t1 ih => intro c; simp [appended, run_cons, ih]

theorem registered_run (tr : List (Step Fn)) :
    ∀ c : Config Fn, Registered c.state → Registered (run c tr).state := by
  induction tr with
  | nil => intro c h; exact h
  | cons st tr ih => intro c h; exact ih _ (registered_step c st h)

theorem registered_empty : Registered (Config.empty : Config Fn).state := by
  simp [Registered, Config.empty, State.empty]

section Counting

variable [DecidableEq Fn]

/-- A transition adds to the items of `p` (executed, pending or claimed) at most what it
appends. -/
theorem step_load_le (c : Config Fn) (st : Step Fn) (p : Nat) (w : Fn) :
    nExecuted (step c st) p w + nPending (step c st) p w + nClaimed (step c st) p w ≤
      nExecuted c p w + nPending c p w + nClaimed c p w +
        (appends c st).toList.count (p, w) := by
  have hq : ∀ (loop : Nat) (work : Fn) (result : napi_status),
      nExecuted (step c (.queue loop work result)) p w +
          nPending (step c (.queue loop work result)) p w +
          nClaimed (step c (.queue loop work result)) p w ≤
        nExecuted c p w + nPending c p w + nClaimed c p w +
          (appends c (.queue loop work result)).toList.count (p, w) := by
    intro loop work result
    obtain ⟨h1, h2, _, _, h5⟩ := step_queue_obs c loop work result
    simp only [nExecuted, nPending, nClaimed, h1, h2, h5 p, appends, checkLoopValid_iff]
    by_cases hreg : loop ∈ c.state.nodejsEventLoops
    · by_cases hp : p = loop
      · subst hp
        by_cases hw : w = work
        · subst hw
          split <;> simp [hreg]
          omega
        · have : ¬ work = w := fun h => hw h.symm
          split <;> simp [hreg, List.count_cons, this]
      · simp [hp]
    · simp [hreg]
  cases st with
  | init e =>
    obtain ⟨h1, h2, _, h4⟩ := step_init_obs c e
    simp [nExecuted, nPending, nClaimed, h1, h2, h4 p, appends]
  | queue loop work result => exact hq loop work result
  | queueMain work result =>
    rw [step_queueMain_eq]
    cases hm : getMainEventLoop c.state with
    | none => simp
    | some mainLoop =>
      have hmem : mainLoop ∈ c.state.nodejsEventLoops := by
        unfold getMainEventLoop at hm
        split at hm
        · simp at hm
        · exact List.mem_of_mem_head? hm
      have := hq mainLoop work result
      simpa [appends, hm, (checkLoopValid_iff _ _).2 hmem] using this
  | swap q =>
    by_cases hg : c.state.heap q ≠ none ∧ c.claimed q = []
    · obtain ⟨h1, h2, _, _, h5⟩ := step_swap_obs c q hg
      simp only [nExecuted, nPending, nClaimed, h1, h2, h5 p, appends]
      by_cases hp : p = q
      · subst hp; simp [hg.2]
      · simp [hp, Function.update_noteq hp]
    · rw [step_swap_idle c q hg]; simp
  | exec q =>
    cases hc : c.claimed q with
    | nil => rw [step_exec_nil c q hc]; simp
    | cons item rest =>
      obtain ⟨h1, h2, _, h4⟩ := step_exec_cons c q item rest hc
      simp only [nExecuted, nPending, nClaimed, h1, h2, State.queuedWork, h4, appends]
      by_cases hp : p = q
      · subst hp
        obtain ⟨iw⟩ := item
        by_cases hw : iw = w
        · subst hw; simp [hc]; omega
        · have hw2 : ¬ (p, iw) = (p, w) := by simp [hw]
          have hw3 : ¬ ({ work := iw } : EventLoopWork Fn) = { work := w } := by simp [hw]
          simp [hc, List.count_cons, hw]
      · have : ¬ (q, item.work) = (p, w) := by
          intro h; exact hp (by simpa using (congrArg Prod.fst h).symm)
        simp [Function.update_noteq hp, List.count_cons, List.count_append, this]
  | cleanup h =>
    cases hf : getEventLoop c.state h with
    | none => rw [step_cleanup_absent c h hf]; simp
    | some loop =>
      obtain ⟨h1, h2, h3, _⟩ := step_cleanup_found c h loop hf
      simp only [nExecuted, nPending, nClaimed, h1, h2, State.queuedWork, h3, appends]
      by_cases hp : p = loop
      · subst hp; simp
      · simp [Function.update_noteq hp]

/-- What a loop has claimed or run never shrinks, and grows only when a pass of the loop
starts. -/
theorem step_done (c : Config Fn) (st : Step Fn) (p : Nat) (w : Fn) :
    nExecuted c p w + nClaimed c p w ≤ nExecuted (step c st) p w + nClaimed (step c st) p w ∧
    (st ≠ .swap p →
      nExecuted (step c st) p w + nClaimed (step c st) p w =
        nExecuted c p w + nClaimed c p w) := by
  have hq : ∀ (loop : Nat) (work : Fn) (result : napi_status),
      nExecuted (step c (.queue loop work result)) p w +
          nClaimed (step c (.queue loop work result)) p w =
        nExecuted c p w + nClaimed c p w := by
    intro loop work result
    obtain ⟨h1, h2, _, _, _⟩ := step_queue_obs c loop work result
    simp only [nExecuted, nClaimed, h1, h2]
  cases st with
  | init e =>
    obtain ⟨h1, h2, _, _⟩ := step_init_obs c e
    simp [nExecuted, nClaimed, h1, h2]
  | queue loop work result => simp [hq loop work result]
  | queueMain work result =>
    rw [step_queueMain_eq]
    cases hm : getMainEventLoop c.state with
    | none => simp
    | some mainLoop => simp [hq mainLoop work result]
  | swap q =>
    by_cases hg : c.state.heap q ≠ none ∧ c.claimed q = []
    · obtain ⟨h1, h2, _, _, _⟩ := step_swap_obs c q hg
      simp only [nExecuted, nClaimed, h1, h2]
      by_cases hp : p = q
      · subst hp; simp [hg.2]
      · have : ¬ q = p := fun h => hp h.symm
        simp [Function.update_noteq hp, this]
    · rw [step_swap_idle c q hg]; simp
  | exec q =>
    cases hc : c.claimed q with
    | nil => rw [step_exec_nil c q hc]; simp
    | cons item rest =>
      obtain ⟨h1, h2, _, _⟩ := step_exec_cons c q item rest hc
      simp only [nExecuted, nClaimed, h1, h2]
      by_cases hp : p = q
      · subst hp
        obtain ⟨iw⟩ := item
        by_cases hw : iw = w
        · subst hw; simp [hc]; omega
        · simp [hc, List.count_cons, hw]
      · have : ¬ (q, item.work) = (p, w) := by
          intro h; exact hp (by simpa using (congrArg Prod.fst h).symm)
        simp [Function.update_noteq hp, List.count_cons, List.count_append, this]
  | cleanup h =>
    cases hf : getEventLoop c.state h with
    | none => rw [step_cleanup_absent c h hf]; simp
    | some loop =>
      obtain ⟨h1, h2, _, _⟩ := step_cleanup_found c h loop hf
      simp [nExecuted, nClaimed, h1, h2]

/-- While no teardown names the handle of a live loop, the loop keeps its handle and none of
its items (executed, pending or claimed) goes away. -/
theorem step_load_ge (c : Config Fn) (st : Step Fn) (p hL : Nat) (w : Fn)
    (hu : c.state.uvLoop p = some hL) (hst : st ≠ .cleanup hL) :
    (step c st).state.uvLoop p = some hL ∧
    nExecuted c p w + nPending c p w + nClaimed c p w ≤
      nExecuted (step c st) p w + nPending (step c st) p w + nClaimed (step c st) p w := by
  have hlive : c.state.heap p ≠ none := by
    intro h; simp [State.uvLoop, h] at hu
  have hq : ∀ (loop : Nat) (work : Fn) (result : napi_status),
      (step c (.queue loop work result)).state.uvLoop p = some hL ∧
      nExecuted c p w + nPending c p w + nClaimed c p w ≤
        nExecuted (step c (.queue loop work result)) p w +
          nPending (step c (.queue loop work result)) p w +
          nClaimed (step c (.queue loop work result)) p w := by
    intro loop work result
    obtain ⟨h1, h2, _, h4, h5⟩ := step_queue_obs c loop work result
    refine ⟨by rw [h4 p]; exact hu, ?_⟩
    simp only [nExecuted, nPending, nClaimed, h1, h2, h5 p]
    split
    · simp [List.count_append]
    · exact le_refl _
  cases st with
  | init e =>
    obtain ⟨h1, h2, h3, h4⟩ := step_init_obs c e
    refine ⟨by rw [h3 p hlive]; exact hu, ?_⟩
    simp [nExecuted, nPending, nClaimed, h1, h2, h4 p]
  | queue loop work result => exact hq loop work result
  | queueMain work result =>
    rw [step_queueMain_eq]
    cases hm : getMainEventLoop c.state with
    | none => exact ⟨hu, le_refl _⟩
    | some mainLoop => exact hq mainLoop work result
  | swap q =>
    by_cases hg : c.state.heap q ≠ none ∧ c.claimed q = []
    · obtain ⟨h1, h2, _, h4, h5⟩ := step_swap_obs c q hg
      refine ⟨by rw [h4 p]; exact hu, ?_⟩
      simp only [nExecuted, nPending, nClaimed, h1, h2, h5 p]
      by_cases hp : p = q
      · subst hp; simp [hg.2]
      · simp [hp, Function.update_noteq hp]
    · rw [step_swap_idle c q hg]; exact ⟨hu, le_refl _⟩
  | exec q =>
    cases hc : c.claimed q with
    | nil => rw [step_exec_nil c q hc]; exact ⟨hu, le_refl _⟩
    | cons item rest =>
      obtain ⟨h1, h2, _, h4⟩ := step_exec_cons c q item rest hc
      refine ⟨by simpa [State.uvLoop, h4] using hu, ?_⟩
      simp only [nExecuted, nPending, nClaimed, h1, h2, State.queuedWork, h4]
      by_cases hp : p = q
      · subst hp
        obtain ⟨iw⟩ := item
        by_cases hw : iw = w
        · subst hw; simp [hc]; omega
        · simp [hc, List.count_cons, hw]
      · have : ¬ (q, item.work) = (p, w) := by
          intro h; exact hp (by simpa using (congrArg Prod.fst h).symm)
        simp [Function.update_noteq hp, List.count_cons, List.count_append, this]
  | cleanup h =>
    cases hf : getEventLoop c.state h with
    | none => rw [step_cleanup_absent c h hf]; exact ⟨hu, le_refl _⟩
    | some loop =>
      obtain ⟨h1, h2, h3, _⟩ := step_cleanup_found c h loop hf
      have hne : p ≠ loop := by
        rintro rfl
        have := (getEventLoop_some c.state h p hf).2
        rw [hu] at this
        exact hst (by simp at this; rw [this])
      refine ⟨by simpa [State.uvLoop, h3, Function.update_noteq hne] using hu, ?_⟩
      simp [nExecuted, nPending, nClaimed, h1, h2, State.queuedWork, h3,
        Function.update_noteq hne]

theorem run_load_le (tr : List (Step Fn)) (p : Nat) (w : Fn) :
    ∀ c : Config Fn,
      nExecuted (run c tr) p w + nPending (run c tr) p w + nClaimed (run c tr) p w ≤
        nExecuted c p w + nPending c p w + nClaimed c p w + (appended c tr).count (p, w) := by
  induction tr with
  | nil => intro c; simp [run, appended]
  | cons st tr ih =>
    intro c
    have h1 := ih (step c st)
    have h2 := step_load_le c st p w
    simp only [run_cons, appended, List.count_append]
    omega

theorem run_done_ge (tr : List (Step Fn)) (p : Nat) (w : Fn) :
    ∀ c : Config Fn,
      nExecuted c p w + nClaimed c p w ≤ nExecuted (run c tr) p w + nClaimed (run c tr) p w := by
  induction tr with
  | nil => intro c; exact le_refl _
  | cons st tr ih =>
    intro c
    have h1 := ih (step c st)
    have h2 := (step_done c st p w).1
    simp only [run_cons]
    omega

theorem run_done_eq (tr : List (Step Fn)) (p : Nat) (w : Fn) (hsw : Step.swap p ∉ tr) :
    ∀ c : Config Fn,
      nExecuted (run c tr) p w + nClaimed (run c tr) p w = nExecuted c p w + nClaimed c p w := by
  induction tr with
  | nil => intro c; rfl
  | cons st tr ih =>
    intro c
    have h1 := ih (fun h => hsw (List.mem_cons_of_mem _ h)) (step c st)
    have h2 := (step_done c st p w).2 (fun h => hsw (by simp [h]))
    simp only [run_cons]
    omega

theorem run_load_ge (tr : List (Step Fn)) (p hL : Nat) (w : Fn)
    (hcl : Step.cleanup hL ∉ tr) :
    ∀ c : Config Fn, c.state.uvLoop p = some hL →
      (run c tr).state.uvLoop p = some hL ∧
      nExecuted c p w + nPending c p w + nClaimed c p w ≤
        nExecuted (run c tr) p w + nPending (run c tr) p w + nClaimed (run c tr) p w := by
  induction tr with
  | nil => intro c hu; exact ⟨hu, le_refl _⟩
  | cons st tr ih =>
    intro c hu
    have h2 := step_load_ge c st p hL w hu (fun h => hcl (by simp [h]))
    have h1 := ih (fun h => hcl (List.mem_cons_of_mem _ h)) (step c st) h2.1
    simp only [run_cons]
    exact ⟨h1.1, by omega⟩

end Counting

/-! ## At most once -/

theorem count_inst {α : Type} (i1 i2 : BEq α) (h1 : @LawfulBEq α i1) (h2 : @LawfulBEq α i2)
    (a : α) (l : List α) : @List.count α i1 a l = @List.count α i2 a l := by
  have : i1 = i2 := by
    cases i1 with | mk b1 =>
    cases i2 with | mk b2 =>
    congr
    funext x y
    by_cases h : x = y
    · subst h
      rw [@LawfulBEq.rfl α ⟨b1⟩ h1 x |> fun h => (h : b1 x x = true),
        @LawfulBEq.rfl α ⟨b2⟩ h2 x |> fun h => (h : b2 x x = true)]
    · have e1 : b1 x y = false := by
        cases hb : b1 x y with
        | false => rfl
        | true => exact absurd (@LawfulBEq.eq_of_beq α ⟨b1⟩ h1 x y hb) h
      have e2 : b2 x y = false := by
        cases hb : b2 x y with
        | false => rfl
        | true => exact absurd (@LawfulBEq.eq_of_beq α ⟨b2⟩ h2 x y hb) h
      rw [e1, e2]
  subst this
  rfl

theorem appends_some (c : Config Fn) (a : Step Fn) (L : Nat) (w : Fn)
    (h : appends c a = some (L, w)) :
    L ∈ c.state.nodejsEventLoops ∧ (∀ q, a ≠ .swap q) ∧
      ∃ r, step c a = step c (.queue L w r) := by
  cases a with
  | queue loop work result =>
    simp only [appends] at h
    split at h
    · rename_i hv
      simp only [Option.some.injEq, Prod.mk.injEq] at h
      obtain ⟨rfl, rfl⟩ := h
      exact ⟨(checkLoopValid_iff _ _).1 hv, fun q => by simp, result, rfl⟩
    · simp at h
  | queueMain work result =>
    simp only [appends] at h
    cases hm : getMainEventLoop c.state with
    | none => simp [hm] at h
    | some mainLoop =>
      simp only [hm, Option.map_some', Option.some.injEq, Prod.mk.injEq] at h
      obtain ⟨rfl, rfl⟩ := h
      have hmem : mainLoop ∈ c.state.nodejsEventLoops := by
        unfold getMainEventLoop at hm
        split at hm
        · simp at hm
        · exact List.mem_of_mem_head? hm
      refine ⟨hmem, fun q => by simp, result, ?_⟩
      rw [step_queueMain_eq, hm]
  | init e => simp [appends] at h
  | swap q => simp [appends] at h
  | exec q => simp [appends] at h
  | cleanup q => simp [appends] at h

section AtMostOnce

variable [DecidableEq Fn]

theorem load_empty (p : Nat) (w : Fn) :
    nExecuted (Config.empty : Config Fn) p w + nPending (Config.empty : Config Fn) p w +
      nClaimed (Config.empty : Config Fn) p w = 0 := by
  simp [nExecuted, nPending, nClaimed, Config.empty, State.empty, executed, State.queuedWork]

/-- C2: in every trace of registrations, `queue` and `queueMain` calls, swaps, item
executions and teardowns from the start of the process, (1) the drain passes of a loop call
an item no more often than it was appended to that loop, so that no call is repeated when
no append is; (2) when an item has been appended to
a loop, the loop is not torn down before its next pass starts, and that pass has run all
it claimed, the item has been called, and exactly once if it was appended once; (3) when the
loop is torn down before any pass of it starts, an item appended once is never called. -/
theorem at_most_once :
    (∀ (tr : List (Step Fn)) (p : Nat) (w : Fn),
      (executed (run Config.empty tr).state).count (p, w) ≤
        (appended Config.empty tr).count (p, w)) ∧
    (∀ tr : List (Step Fn), (appended (Config.empty : Config Fn) tr).Nodup →
      (executed (run (Config.empty : Config Fn) tr).state).Nodup) ∧
    (∀ (pre mid post : List (Step Fn)) (a : Step Fn) (L : Nat) (w : Fn),
      appends (run Config.empty pre) a = some (L, w) →
      (∀ hL, (run Config.empty pre).state.uvLoop L = some hL → Step.cleanup hL ∉ mid) →
      (run Config.empty (pre ++ a :: mid)).claimed L = [] →
      (run Config.empty (pre ++ a :: (mid ++ Step.swap L :: post))).claimed L = [] →
      1 ≤ (executed (run Config.empty
          (pre ++ a :: (mid ++ Step.swap L :: post))).state).count (L, w) ∧
      ((appended Config.empty (pre ++ a :: (mid ++ Step.swap L :: post))).count (L, w) = 1 →
        (executed (run Config.empty
          (pre ++ a :: (mid ++ Step.swap L :: post))).state).count (L, w) = 1)) ∧
    (∀ (pre mid post : List (Step Fn)) (a : Step Fn) (L h : Nat) (w : Fn),
      appends (run Config.empty pre) a = some (L, w) →
      Step.swap L ∉ mid →
      getEventLoop (run Config.empty (pre ++ a :: mid)).state h = some L →
      (appended Config.empty (pre ++ a :: (mid ++ Step.cleanup h :: post))).count (L, w) = 1 →
      (L, w) ∉ executed (run Config.empty
        (pre ++ a :: (mid ++ Step.cleanup h :: post))).state) := by
  have part1 : ∀ (tr : List (Step Fn)) (p : Nat) (w : Fn),
      (executed (run Config.empty tr).state).count (p, w) ≤
        (appended Config.empty tr).count (p, w) := by
    intro tr p w
    have h1 := run_load_le tr p w (Config.empty : Config Fn)
    have h2 := @load_empty Fn _ p w
    simp only [nExecuted] at h1 h2
    omega
  refine ⟨part1, ?_, ?_, ?_⟩
  · intro tr hnd
    rw [List.nodup_iff_count_le_one]
    intro x
    have h1 := part1 tr x.1 x.2
    have h2 := List.nodup_iff_count_le_one.1 hnd x
    have e : ∀ (y : Nat × Fn) (l : List (Nat × Fn)),
        @List.count _ instBEqOfDecidableEq y l = List.count y l := by
      intro y l
      refine count_inst _ _ ?_ ?_ y l
      · exact instLawfulBEq
      · infer_instance
    rw [e] at h2
    rw [e]
    exact h1.trans h2
  · intro pre mid post a L w happ hcl hidle hdone
    have hreg : Registered (run Config.empty pre).state :=
      registered_run pre _ registered_empty
    obtain ⟨hmem, _, r, hstep⟩ := appends_some _ a L w happ
    obtain ⟨l, hl⟩ := Option.ne_none_iff_exists'.1 (hreg.1 L hmem)
    have hu : (run Config.empty pre).state.uvLoop L = some l.uvLoop := by
      simp [State.uvLoop, hl]
    obtain ⟨q1, q2, _, q4, q5⟩ := step_queue_obs (run Config.empty pre) L w r
    -- after the append the item is pending
    have hpend : 1 ≤ nPending (step (run Config.empty pre) a) L w := by
      rw [hstep]
      simp [nPending, q5 L, hmem, hl, List.count_append]
    have hu2 : (step (run Config.empty pre) a).state.uvLoop L = some l.uvLoop := by
      rw [hstep, q4 L]; exact hu
    -- it stays with the loop until the pass starts
    obtain ⟨hu3, hload⟩ := run_load_ge mid L l.uvLoop w (hcl _ hu) _ hu2
    have e3 : run Config.empty (pre ++ a :: mid) = run (step (run Config.empty pre) a) mid := by
      rw [run_append, run_cons]
    rw [← e3] at hu3 hload
    have hlive : (run Config.empty (pre ++ a :: mid)).state.heap L ≠ none :=
      (uvLoop_ne_none _ _).1 (by rw [hu3]; simp)
    obtain ⟨s1, s2, _, _, _⟩ := step_swap_obs _ L ⟨hlive, hidle⟩
    have hsw : 1 ≤ nExecuted (step (run Config.empty (pre ++ a :: mid)) (.swap L)) L w +
        nClaimed (step (run Config.empty (pre ++ a :: mid)) (.swap L)) L w := by
      simp only [nExecuted, nClaimed, s1, s2, Function.update_same]
      simp only [nExecuted, nPending, nClaimed, hidle, List.count_nil] at hload hpend
      omega
    have hfin := run_done_ge post L w (step (run Config.empty (pre ++ a :: mid)) (.swap L))
    have e5 : run Config.empty (pre ++ a :: (mid ++ Step.swap L :: post)) =
        run (step (run Config.empty (pre ++ a :: mid)) (.swap L)) post := by
      rw [show pre ++ a :: (mid ++ Step.swap L :: post) =
        (pre ++ a :: mid) ++ Step.swap L :: post by simp, run_append, run_cons]
    rw [← e5] at hfin
    have hone : 1 ≤ (executed (run Config.empty
        (pre ++ a :: (mid ++ Step.swap L :: post))).state).count (L, w) := by
      simp only [nExecuted, nClaimed, hdone, List.count_nil] at hfin hsw
      omega
    refine ⟨hone, fun happ1 => ?_⟩
    have := part1 (pre ++ a :: (mid ++ Step.swap L :: post)) L w
    omega
  · intro pre mid post a L h w happ hsw hfound hone
    obtain ⟨_, hnsw, r, _⟩ := appends_some _ a L w happ
    -- the append of the hypothesis is the only one of the trace
    have hsplit : appended Config.empty (pre ++ a :: (mid ++ Step.cleanup h :: post)) =
        appended Config.empty pre ++ ((L, w) ::
          (appended (step (run Config.empty pre) a) mid ++
            appended (step (run Config.empty (pre ++ a :: mid)) (.cleanup h)) post)) := by
      rw [appended_append, appended, happ]
      rw [appended_append, appended]
      simp [appends, run_append, run_cons]
    rw [hsplit] at hone
    simp only [List.count_append, List.count_cons_self] at hone
    have h0 := run_load_le pre L w (Config.empty : Config Fn)
    have hz := @load_empty Fn _ L w
    have h1 := (step_done (run Config.empty pre) a L w).2 (hnsw L)
    have h2 := run_done_eq mid L w hsw (step (run Config.empty pre) a)
    have e3 : run Config.empty (pre ++ a :: mid) = run (step (run Config.empty pre) a) mid := by
      rw [run_append, run_cons]
    rw [← e3] at h2
    have h3 := (step_done (run Config.empty (pre ++ a :: mid)) (.cleanup h) L w).2 (by simp)
    obtain ⟨_, _, c3, _⟩ := step_cleanup_found _ h L hfound
    have hp : nPending (step (run Config.empty (pre ++ a :: mid)) (.cleanup h)) L w = 0 := by
      simp [nPending, State.queuedWork, c3]
    have h4 := run_load_le post L w (step (run Config.empty (pre ++ a :: mid)) (.cleanup h))
    have e5 : run Config.empty (pre ++ a :: (mid ++ Step.cleanup h :: post)) =
        run (step (run Config.empty (pre ++ a :: mid)) (.cleanup h)) post := by
      rw [show pre ++ a :: (mid ++ Step.cleanup h :: post) =
        (pre ++ a :: mid) ++ Step.cleanup h :: post by simp, run_append, run_cons]
    rw [← e5] at h4
    have hzero : (executed (run Config.empty
        (pre ++ a :: (mid ++ Step.cleanup h :: post))).state).count (L, w) = 0 := by
      simp only [nExecuted] at h0 hz h1 h2 h3 h4
      omega
    exact List.count_eq_zero.1 hzero

/-- C2 on two traces of one loop and one item: appended, swapped and run, the item is called
exactly once; appended and torn down before any swap, it is never called. -/
theorem at_most_once_witness :
    (executed (run (Config.empty : Config Nat)
        ([.init firstInit] ++ .queue 1 5 .napi_ok :: ([] ++ .swap 1 :: [.exec 1]))).state).count
      (1, 5) = 1 ∧
    (1, 5) ∉ executed (run (Config.empty : Config Nat)
        ([.init firstInit] ++ .queue 1 5 .napi_ok ::
          ([] ++ .cleanup 11 :: [.swap 1, .exec 1]))).state := by
  refine ⟨?_, ?_⟩
  · exact (at_most_once.2.2.1 [.init firstInit] [] [.exec 1] (.queue 1 5 .napi_ok) 1 5
      (by decide) (by simp) (by rfl) (by rfl)).2 (by decide)
  · exact at_most_once.2.2.2 [.init firstInit] [] [.swap 1, .exec 1] (.queue 1 5 .napi_ok) 1 11 5
      (by decide) (by simp) (by rfl) (by decide)

end AtMostOnce

/-! ## Appends during a drain pass -/

theorem run_pass (L : Nat) (mid : List (Step Fn)) :
    ∀ c : Config Fn,
      (∀ st ∈ mid, st = .exec L ∨ ∃ w r, st = .queue L w r) →
      L ∈ c.state.nodejsEventLoops → c.state.heap L ≠ none →
      executed (run c mid).state =
        executed c.state ++ ((c.claimed L).take (execs mid)).map (fun i => (L, i.work)) ∧
      (run c mid).claimed L = (c.claimed L).drop (execs mid) ∧
      (run c mid).state.queuedWork L =
        c.state.queuedWork L ++ (queued mid).map (fun w => { work := w }) ∧
      (run c mid).state.heap L ≠ none := by
  induction mid with
  | nil => intro c _ _ h; simpa [run, execs, queued] using h
  | cons st mid ih =>
    intro c hmid hreg hlive
    have hmid2 : ∀ st ∈ mid, st = .exec L ∨ ∃ w r, st = .queue L w r :=
      fun st hst => hmid st (List.mem_cons_of_mem _ hst)
    rcases hmid st (by simp) with rfl | ⟨w, r, rfl⟩
    · have hex : execs (Step.exec L :: mid) = execs mid + 1 := by simp [execs]
      have hqd : queued (Step.exec L :: mid) = queued mid := by simp [queued]
      rw [run_cons, hex, hqd]
      cases hc : c.claimed L with
      | nil =>
        rw [step_exec_nil c L hc]
        obtain ⟨i1, i2, i3, i4⟩ := ih c hmid2 hreg hlive
        rw [i1, i2, i3, hc]
        simpa using i4
      | cons item rest =>
        obtain ⟨e1, e2, e3, e4⟩ := step_exec_cons c L item rest hc
        obtain ⟨i1, i2, i3, i4⟩ := ih (step c (.exec L)) hmid2 (by rw [e3]; exact hreg)
          (by rw [e4]; exact hlive)
        rw [i1, i2, i3, e1, e2]
        simpa [State.queuedWork, e4] using i4
    · have hex : execs (Step.queue L w r :: mid) = execs mid := by simp [execs]
      have hqd : queued (Step.queue L w r :: mid) = w :: queued mid := by simp [queued]
      rw [run_cons, hex, hqd]
      obtain ⟨q1, q2, q3, q4, q5⟩ := step_queue_obs c L w r
      have hlive2 : (step c (.queue L w r)).state.heap L ≠ none := by
        rw [← uvLoop_ne_none, q4 L, uvLoop_ne_none]; exact hlive
      obtain ⟨i1, i2, i3, i4⟩ :=
        ih (step c (.queue L w r)) hmid2 (by rw [q3]; exact hreg) hlive2
      rw [i1, i2, i3, q1, q2, q5 L]
      have : (c.state.heap L).isSome = true := by
        cases h : c.state.heap L with
        | none => exact absurd h hlive
        | some l => rfl
      simpa [hreg, this] using i4

/-- C3: a drain pass of a registered loop swaps out the pending items `P`; while it runs
them, other threads make calls `queue(L, w)` that are accepted, the items `Q`.  When the
pass has run all it claimed, it has called exactly `P` in order and none of `Q`, which is
the pending queue; the next drain pass calls exactly `Q` in order; and the two passes
together made as many calls as there were items, `|P| + |Q|`. -/
theorem two_pass_no_loss (c : Config Fn) (L : Nat) (l : EventLoop Fn) (mid : List (Step Fn))
    (hreg : L ∈ c.state.nodejsEventLoops) (hl : c.state.heap L = some l)
    (hidle : c.claimed L = [])
    (hmid : ∀ st ∈ mid, st = .exec L ∨
      ∃ w r, st = .queue L w r ∧ (r = .napi_ok ∨ r = .napi_queue_full))
    (hruns : l.queuedWork.length ≤ execs mid) :
    (step c (.swap L)).claimed L = l.queuedWork ∧
    executed (run c (.swap L :: mid)).state =
      executed c.state ++ l.queuedWork.map (fun i => (L, i.work)) ∧
    (run c (.swap L :: mid)).claimed L = [] ∧
    (run c (.swap L :: mid)).state.queuedWork L = (queued mid).map (fun w => { work := w }) ∧
    executed (handleLoopQueue .napi_ok L (run c (.swap L :: mid)).state) =
      executed (run c (.swap L :: mid)).state ++ (queued mid).map (fun w => (L, w)) ∧
    (handleLoopQueue .napi_ok L (run c (.swap L :: mid)).state).queuedWork L = [] ∧
    (executed (handleLoopQueue .napi_ok L (run c (.swap L :: mid)).state)).length =
      (executed c.state).length + (l.queuedWork.length + (queued mid).length) := by
  have hlive : c.state.heap L ≠ none := by simp [hl]
  obtain ⟨s1, s2, s3, s4, s5⟩ := step_swap_obs c L ⟨hlive, hidle⟩
  have hcl : (step c (.swap L)).claimed L = l.queuedWork := by
    rw [s1]; simp [State.queuedWork, hl]
  have hlive2 : (step c (.swap L)).state.heap L ≠ none := by
    rw [← uvLoop_ne_none, s4 L, uvLoop_ne_none]; exact hlive
  obtain ⟨r1, r2, r3, r4⟩ := run_pass L mid (step c (.swap L))
    (fun st hst => (hmid st hst).imp id (fun ⟨w, r, h, _⟩ => ⟨w, r, h⟩))
    (by rw [s3]; exact hreg) hlive2
  rw [hcl, s2, List.take_of_length_le hruns] at r1
  rw [hcl, List.drop_of_length_le hruns] at r2
  rw [s5 L] at r3
  simp only [if_true, List.nil_append] at r3
  rw [← run_cons] at r1 r2 r3 r4
  obtain ⟨l2, hl2⟩ := Option.ne_none_iff_exists'.1 r4
  have hh := handleLoopQueue_state L (run c (.swap L :: mid)).state l2 hl2
  have hq2 : l2.queuedWork = (queued mid).map (fun w => { work := w }) := by
    have : (run c (.swap L :: mid)).state.queuedWork L = l2.queuedWork := by
      simp [State.queuedWork, hl2]
    rw [← this]; exact r3
  have hex : executed (handleLoopQueue .napi_ok L (run c (.swap L :: mid)).state) =
      executed (run c (.swap L :: mid)).state ++ (queued mid).map (fun w => (L, w)) := by
    rw [hh]
    have e1 := executed_append (run c (.swap L :: mid)).state
      (l2.queuedWork.map (fun i => Call.work L i.work))
    have e3 := executed_work L (run c (.swap L :: mid)).state (queued mid)
    simp only [executed, hq2, List.map_map, Function.comp_def] at e1 e3 ⊢
    rw [e1, e3]
  refine ⟨hcl, r1, r2, r3, hex, ?_, ?_⟩
  · rw [hh]; simp [State.queuedWork]
  · rw [hex, r1]
    simp [Nat.add_assoc]

/-- C3 at the example registry: loop 2 holds 7 and 8; item 9 arrives between the two
executions of the pass and is run by the next pass. -/
theorem two_pass_no_loss_witness :
    (2 ∈ twoLoopsIdle.state.nodejsEventLoops ∧ twoLoopsIdle.claimed 2 = []) ∧
    executed (run twoLoopsIdle
      (.swap 2 :: [.exec 2, .queue 2 9 .napi_queue_full, .exec 2])).state = [(2, 7), (2, 8)] ∧
    executed (handleLoopQueue .napi_ok 2 (run twoLoopsIdle
      (.swap 2 :: [.exec 2, .queue 2 9 .napi_queue_full, .exec 2])).state) =
      [(2, 7), (2, 8), (2, 9)] := by
  have h := two_pass_no_loss twoLoopsIdle 2
    { uvLoop := 12, threadId := 2, queuedWork := [⟨7⟩, ⟨8⟩], queueFunction := 22 }
    [.exec 2, .queue 2 9 .napi_queue_full, .exec 2] (by decide) rfl rfl
    (by
      intro st hst
      simp only [List.mem_cons, List.mem_singleton, List.not_mem_nil, or_false] at hst
      rcases hst with rfl | rfl | rfl
      · exact Or.inl rfl
      · exact Or.inr ⟨9, .napi_queue_full, rfl, Or.inr rfl⟩
      · exact Or.inl rfl)
    (by decide)
  refine ⟨⟨by decide, rfl⟩, ?_, ?_⟩
  · simpa [executed, twoLoopsIdle, twoLoops] using h.2.1
  · have h5 := h.2.2.2.2.1
    rw [h.2.1] at h5
    simpa [executed, twoLoopsIdle, twoLoops, queued] using h5

/-! ## Lookup and teardown by native handle -/

theorem distinct_nodup (s : State Fn) (hd : DistinctHandles s) : s.nodejsEventLoops.Nodup :=
  List.Nodup.of_map _ hd

theorem getEventLoop_of_distinct (s : State Fn) (L h : Nat) (hd : DistinctHandles s)
    (hreg : L ∈ s.nodejsEventLoops) (hu : s.uvLoop L = some h) :
    getEventLoop s h = some L := by
  cases hf : getEventLoop s h with
  | none =>
    unfold getEventLoop at hf
    have := List.find?_eq_none.1 hf L hreg
    simp [hasUvLoop, hu] at this
  | some p =>
    obtain ⟨hp, hup⟩ := getEventLoop_some s h p hf
    have : p = L := List.inj_on_of_nodup_map hd hp hreg (by rw [hup, hu])
    rw [this]

theorem cleanup_removes (s : State Fn) (L h : Nat) (hd : DistinctHandles s)
    (hreg : L ∈ s.nodejsEventLoops) (hu : s.uvLoop L = some h) :
    ∃ cs : List (Call Fn),
      (∀ c ∈ cs, ∃ f, c = Call.napi_release_threadsafe_function f) ∧
      NativeModule_main_cleanup h s =
        { heap := Function.update s.heap L none
          nodejsEventLoops := s.nodejsEventLoops.erase L
          calls := s.calls ++ cs } := by
  have hf := getEventLoop_of_distinct s L h hd hreg hu
  obtain ⟨cs, hcs, hs⟩ := cleanup_found h L s hf
  refine ⟨cs, hcs, ?_⟩
  rw [hs, eraseP_eq_erase_of_find _ _ _ hf]

theorem getEventLoop_cleanup (s : State Fn) (h : Nat) (hd : DistinctHandles s) :
    getEventLoop (NativeModule_main_cleanup h s) h = none := by
  cases hf : getEventLoop s h with
  | none => rw [cleanup_absent h s hf]; exact hf
  | some L =>
    obtain ⟨hreg, hu⟩ := getEventLoop_some s h L hf
    obtain ⟨cs, _, hs⟩ := cleanup_removes s L h hd hreg hu
    rw [hs]
    unfold getEventLoop
    rw [List.find?_eq_none]
    intro p hp
    have hp2 := (List.Nodup.mem_erase_iff (distinct_nodup s hd)).1 hp
    have hne : s.uvLoop p ≠ some h := by
      intro hup
      exact hp2.1 (List.inj_on_of_nodup_map hd hp2.2 hreg (by rw [hup, hu]))
    simpa [hasUvLoop, State.uvLoop, Function.update_noteq hp2.1] using hne

/-- C4: in a registry with pairwise distinct native handles, once the teardown hook
`NativeModule_main_cleanup(L->uvLoop)` of a registered loop has run, every `queue(L, w)`
throws `InvalidLoop` and leaves the whole state as it was: no queue grows, no signal is sent,
the registry is the same.  And in every state `queue(loop, w)` throws `InvalidLoop` exactly
when `loop` is not in the registry. -/
theorem enqueue_after_teardown (s : State Fn) (L : Nat) (l : EventLoop Fn)
    (hd : DistinctHandles s) (hreg : L ∈ s.nodejsEventLoops) (hl : s.heap L = some l) :
    (∀ (w : Fn) (r : napi_status),
      queue L w r (NativeModule_main_cleanup l.uvLoop s) =
        (.error .InvalidLoop, NativeModule_main_cleanup l.uvLoop s)) ∧
    (∀ (s0 : State Fn) (loop : Nat) (w : Fn) (r : napi_status),
      (queue loop w r s0).1 = .error .InvalidLoop ↔ loop ∉ s0.nodejsEventLoops) := by
  refine ⟨?_, ?_⟩
  · intro w r
    have hu : s.uvLoop L = some l.uvLoop := by simp [State.uvLoop, hl]
    obtain ⟨cs, _, hs⟩ := cleanup_removes s L l.uvLoop hd hreg hu
    apply queue_invalid
    rw [hs]
    intro hmem
    exact ((List.Nodup.mem_erase_iff (distinct_nodup s hd)).1 hmem).1 rfl
  · intro s0 loop w r
    constructor
    · intro h hmem
      rw [queue_result loop w r s0 hmem] at h
      split at h <;> simp at h
    · intro h
      rw [queue_invalid loop w r s0 h]

/-- C4 at the example registry: loop 2 is torn down, then `queue` on it throws. -/
theorem enqueue_after_teardown_witness :
    (DistinctHandles twoLoops ∧ 2 ∈ twoLoops.nodejsEventLoops) ∧
    (queue 2 9 .napi_ok (NativeModule_main_cleanup 12 twoLoops)).1 = .error .InvalidLoop := by
  refine ⟨⟨by decide, by decide⟩, ?_⟩
  have h := (enqueue_after_teardown twoLoops 2
    { uvLoop := 12, threadId := 2, queuedWork := [⟨7⟩, ⟨8⟩], queueFunction := 22 }
    (by decide) (by decide) rfl).1 9 .napi_ok
  rw [h]

/-- C5: in a registry with pairwise distinct native handles, the teardown hook of a
registered loop `L`, whatever its pending queue holds, calls no work item, takes `L` out of
the registry and destroys it with its queue, and a lookup of its handle then finds nothing.
No later transition runs the discarded items: whatever happens next, the calls of an item
by passes of `L` are bounded by those made before, those already claimed by a pass, and
the appends made afterwards. -/
theorem teardown_discards [DecidableEq Fn] (s : State Fn) (L : Nat) (l : EventLoop Fn)
    (hd : DistinctHandles s) (hreg : L ∈ s.nodejsEventLoops) (hl : s.heap L = some l) :
    executed (NativeModule_main_cleanup l.uvLoop s) = executed s ∧
    L ∉ (NativeModule_main_cleanup l.uvLoop s).nodejsEventLoops ∧
    (NativeModule_main_cleanup l.uvLoop s).heap L = none ∧
    (NativeModule_main_cleanup l.uvLoop s).queuedWork L = [] ∧
    getEventLoop (NativeModule_main_cleanup l.uvLoop s) l.uvLoop = none ∧
    (∀ (claimed : Nat → List (EventLoopWork Fn)) (tr : List (Step Fn)) (w : Fn),
      (executed (run { state := NativeModule_main_cleanup l.uvLoop s, claimed := claimed }
          tr).state).count (L, w) ≤
        (executed s).count (L, w) + (claimed L).count { work := w } +
          (appended { state := NativeModule_main_cleanup l.uvLoop s, claimed := claimed }
            tr).count (L, w)) := by
  have hu : s.uvLoop L = some l.uvLoop := by simp [State.uvLoop, hl]
  obtain ⟨cs, hcs, hs⟩ := cleanup_removes s L l.uvLoop hd hreg hu
  have hex : executed (NativeModule_main_cleanup l.uvLoop s) = executed s := by
    rw [hs]; exact executed_releases s cs hcs
  have hq : (NativeModule_main_cleanup l.uvLoop s).queuedWork L = [] := by
    rw [hs]; simp [State.queuedWork]
  refine ⟨hex, ?_, ?_, hq, getEventLoop_cleanup s l.uvLoop hd, ?_⟩
  · rw [hs]
    intro hmem
    exact ((List.Nodup.mem_erase_iff (distinct_nodup s hd)).1 hmem).1 rfl
  · rw [hs]; simp
  · intro claimed tr w
    have := run_load_le tr L w
      { state := NativeModule_main_cleanup l.uvLoop s, claimed := claimed }
    simp only [nExecuted, nPending, nClaimed, hq, hex, List.count_nil] at this
    omega

/-- C5 at the example registry: loop 2 is torn down with its two pending items; a drain
pass and an execution attempted afterwards call nothing. -/
theorem teardown_discards_witness :
    (DistinctHandles twoLoops ∧ 2 ∈ twoLoops.nodejsEventLoops) ∧
    executed (NativeModule_main_cleanup 12 twoLoops) = [] ∧
    getEventLoop (NativeModule_main_cleanup 12 twoLoops) 12 = none ∧
    (executed (run { state := NativeModule_main_cleanup 12 twoLoops, claimed := fun _ => [] }
      [.swap 2, .exec 2]).state).count (2, 7) ≤ 0 := by
  have h := teardown_discards twoLoops 2
    { uvLoop := 12, threadId := 2, queuedWork := [⟨7⟩, ⟨8⟩], queueFunction := 22 }
    (by decide) (by decide) rfl
  refine ⟨⟨by decide, by decide⟩, ?_, h.2.2.2.2.1, ?_⟩
  · rw [h.1]; rfl
  · exact h.2.2.2.2.2 (fun _ => []) [.swap 2, .exec 2] 7

/-! ## Registration -/

theorem initAll_state (es : List InitCalls) :
    ∀ s : State Fn, (∀ e ∈ es, e.registers) → (es.map (fun e => e.nodeLoop)).Nodup →
      (initAll es s).nodejsEventLoops = s.nodejsEventLoops ++ es.map (fun e => e.nodeLoop) ∧
      (initAll es s).calls = s.calls ∧
      (∀ e ∈ es, (initAll es s).heap e.nodeLoop = some e.entity) ∧
      (∀ p, p ∉ es.map (fun e => e.nodeLoop) → (initAll es s).heap p = s.heap p) := by
  induction es with
  | nil => intro s _ _; simp [initAll]
  | cons e es ih =>
    intro s hreg hnd
    have hs := init_registers e s (hreg e (by simp))
    have hnd2 := List.nodup_cons.1 hnd
    obtain ⟨i1, i2, i3, i4⟩ := ih (NativeModule_init e s).2
      (fun e' he' => hreg e' (List.mem_cons_of_mem _ he')) hnd2.2
    have e0 : initAll (e :: es) s = initAll es (NativeModule_init e s).2 := rfl
    rw [e0]
    refine ⟨?_, ?_, ?_, ?_⟩
    · rw [i1, hs]; simp
    · rw [i2, hs]
    · intro e' he'
      simp only [List.mem_cons] at he'
      by_cases hmem : e' ∈ es
      · exact i3 e' hmem
      · have : e' = e := he'.resolve_right hmem
        subst this
        rw [i4 _ hnd2.1, hs]
        simp
    · intro p hp
      simp only [List.map_cons, List.mem_cons, not_or] at hp
      rw [i4 p hp.2, hs]
      simp [Function.update_noteq hp.1]

/-- C6: when loops with pairwise distinct native handles have started one after another in
an empty registry (each `new` returning the address of no other of them), the registry lists
them in order, `getEventLoop` of the handle of each returns that very loop, which holds
the handle and an empty queue, and `getEventLoop` of any other handle returns `nullptr`. -/
theorem lookup_no_aliasing (es : List InitCalls) (hreg : ∀ e ∈ es, e.registers)
    (hptr : (es.map (fun e => e.nodeLoop)).Nodup) (hh : (es.map (fun e => e.uvLoop)).Nodup) :
    getEventLoops (initAll es (State.empty : State Fn)) = es.map (fun e => e.nodeLoop) ∧
    (∀ (i : Nat) (hi : i < es.length),
      getEventLoop (initAll es (State.empty : State Fn)) (es.get ⟨i, hi⟩).uvLoop =
        some (es.get ⟨i, hi⟩).nodeLoop ∧
      (getEventLoops (initAll es (State.empty : State Fn)))[i]? =
        some (es.get ⟨i, hi⟩).nodeLoop ∧
      (initAll es (State.empty : State Fn)).heap (es.get ⟨i, hi⟩).nodeLoop =
        some (es.get ⟨i, hi⟩).entity) ∧
    (∀ h, h ∉ es.map (fun e => e.uvLoop) →
      getEventLoop (initAll es (State.empty : State Fn)) h = none) := by
  obtain ⟨i1, _, i3, _⟩ := initAll_state es (State.empty : State Fn) hreg hptr
  have hlist : (initAll es (State.empty : State Fn)).nodejsEventLoops =
      es.map (fun e => e.nodeLoop) := by
    rw [i1]; simp [State.empty]
  have hu : ∀ e ∈ es, (initAll es (State.empty : State Fn)).uvLoop e.nodeLoop =
      some e.uvLoop := by
    intro e he
    simp [State.uvLoop, i3 e he, InitCalls.entity]
  have hmap : (initAll es (State.empty : State Fn)).nodejsEventLoops.map
      (initAll es (State.empty : State Fn)).uvLoop = es.map (fun e => some e.uvLoop) := by
    rw [hlist, List.map_map]
    exact List.map_congr_left (fun e he => hu e he)
  have hd : DistinctHandles (initAll es (State.empty : State Fn)) := by
    unfold DistinctHandles
    rw [hmap]
    have := List.Nodup.map (Option.some_injective Nat) hh
    simpa [List.map_map, Function.comp_def] using this
  refine ⟨hlist, ?_, ?_⟩
  · intro i hi
    have hmem : es.get ⟨i, hi⟩ ∈ es := List.get_mem es i hi
    refine ⟨?_, ?_, i3 _ hmem⟩
    · exact getEventLoop_of_distinct _ _ _ hd
        (by rw [hlist]; exact List.mem_map_of_mem _ hmem) (hu _ hmem)
    · simp [getEventLoops, hlist, hi]
  · intro h hnot
    unfold getEventLoop
    rw [List.find?_eq_none]
    intro p hp
    rw [hlist] at hp
    obtain ⟨e, he, rfl⟩ := List.mem_map.1 hp
    have : e.uvLoop ≠ h := fun heq => hnot (List.mem_map.2 ⟨e, he, heq⟩)
    simp [hasUvLoop, hu e he, this]

/-- C6 for two loops: each handle finds its own loop, a third handle finds nothing. -/
theorem lookup_no_aliasing_witness :
    getEventLoop (initAll [firstInit, secondInit] (State.empty : State Nat)) 11 = some 1 ∧
    getEventLoop (initAll [firstInit, secondInit] (State.empty : State Nat)) 12 = some 2 ∧
    getEventLoop (initAll [firstInit, secondInit] (State.empty : State Nat)) 13 = none := by
  have h := @lookup_no_aliasing Nat [firstInit, secondInit] (by decide) (by decide) (by decide)
  exact ⟨(h.2.1 0 (by decide)).1, (h.2.1 1 (by decide)).1, h.2.2 13 (by decide)⟩

/-! ## The main loop -/

/-- C7: `queueMain` throws `NoMainLoop` exactly when the registry is empty, and then the
state is what it was; when the registry is not empty, `queueMain(w)` is `queue(front, w)`,
result and state. -/
theorem queueMain_contract (s : State Fn) (w : Fn) (r : napi_status) :
    ((queueMain w r s).1 = .error .NoMainLoop ↔ s.nodejsEventLoops = []) ∧
    (s.nodejsEventLoops = [] → queueMain w r s = (.error .NoMainLoop, s)) ∧
    (∀ first rest, s.nodejsEventLoops = first :: rest →
      getMainEventLoop s = some first ∧ queueMain w r s = queue first w r s) := by
  have hempty : s.nodejsEventLoops = [] → queueMain w r s = (.error .NoMainLoop, s) := by
    intro h
    simp [queueMain, getMainEventLoop, h]
  have hcons : ∀ first rest, s.nodejsEventLoops = first :: rest →
      getMainEventLoop s = some first ∧ queueMain w r s = queue first w r s := by
    intro first rest h
    have hm : getMainEventLoop s = some first := by simp [getMainEventLoop, h]
    exact ⟨hm, by simp [queueMain, hm]⟩
  refine ⟨?_, hempty, hcons⟩
  constructor
  · intro h
    cases hl : s.nodejsEventLoops with
    | nil => rfl
    | cons first rest =>
      rw [(hcons first rest hl).2, queue_result first w r s (by simp [hl])] at h
      split at h <;> simp at h
  · intro h
    rw [hempty h]

/-- C7 on an empty registry and on the example registry, whose front is loop 1. -/
theorem queueMain_contract_witness :
    queueMain 9 .napi_ok (State.empty : State Nat) = (.error .NoMainLoop, State.empty) ∧
    queueMain 9 .napi_ok twoLoops = queue 1 9 .napi_ok twoLoops :=
  ⟨(queueMain_contract State.empty 9 .napi_ok).2.1 rfl,
    ((queueMain_contract twoLoops 9 .napi_ok).2.2 1 [2] rfl).2⟩

/-! ## The activation signal -/

/-- C8: on a registered loop, `queue` returns normally when the signal answers `napi_ok` or
`napi_queue_full` and throws `ActivationFailure` for every other answer; in each case the
signal has been sent once and the item stands at the tail of the pending queue, so that on
a saturated channel the next drain pass calls it, after the items that were pending. -/
theorem signal_outcomes (s : State Fn) (L : Nat) (l : EventLoop Fn) (w : Fn)
    (hreg : L ∈ s.nodejsEventLoops) (hl : s.heap L = some l) :
    (queue L w .napi_ok s).1 = .ok () ∧
    (queue L w .napi_queue_full s).1 = .ok () ∧
    (∀ r, r ≠ .napi_ok → r ≠ .napi_queue_full →
      (queue L w r s).1 = .error (.ActivationFailure r)) ∧
    (∀ r, signalled (queue L w r s).2 = signalled s ++ [l.queueFunction]) ∧
    (queue L w .napi_queue_full s).2.queuedWork L = l.queuedWork ++ [{ work := w }] ∧
    executed (handleLoopQueue .napi_ok L (queue L w .napi_queue_full s).2) =
      executed s ++ l.queuedWork.map (fun i => (L, i.work)) ++ [(L, w)] := by
  have hs := fun r => queue_state L w r s l hreg hl
  refine ⟨?_, ?_, ?_, ?_, ?_, ?_⟩
  · rw [queue_result L w _ s hreg]; simp
  · rw [queue_result L w _ s hreg]; simp
  · intro r h1 h2
    rw [queue_result L w _ s hreg]; simp [h1, h2]
  · intro r
    rw [hs r]; simp [signalled, List.filterMap_append]
  · rw [hs]; simp [State.queuedWork]
  · rw [handleLoopQueue_state L _ { l with queuedWork := l.queuedWork ++ [{ work := w }] }
      (by rw [hs]; simp), hs]
    simp only [executed, List.filterMap_append, List.filterMap_map, Function.comp_def,
      List.map_append, List.map_cons, List.map_nil, List.filterMap_cons, List.filterMap_nil,
      List.append_nil, List.append_assoc]
    have hmap : ∀ items : List (EventLoopWork Fn),
        List.filterMap (fun x => some (L, x.work)) items =
          items.map (fun i => (L, i.work)) := by
      intro items
      induction items with
      | nil => rfl
      | cons i items ih => simp [ih]
    rw [hmap]
    simp

/-- C8 at the example registry: an append to loop 2 on a saturated channel. -/
theorem signal_outcomes_witness :
    (2 ∈ twoLoops.nodejsEventLoops) ∧
    (queue 2 9 .napi_queue_full twoLoops).1 = .ok () ∧
    (queue 2 9 (.failure 9) twoLoops).1 = .error (.ActivationFailure (.failure 9)) ∧
    executed (handleLoopQueue .napi_ok 2 (queue 2 9 .napi_queue_full twoLoops).2) =
      [(2, 7), (2, 8), (2, 9)] := by
  have h := signal_outcomes twoLoops 2
    { uvLoop := 12, threadId := 2, queuedWork := [⟨7⟩, ⟨8⟩], queueFunction := 22 } 9
    (by decide) rfl
  refine ⟨by decide, h.2.1, h.2.2.1 _ (by decide) (by decide), ?_⟩
  rw [h.2.2.2.2.2]; rfl

/-! ## Teardown twice -/

/-- C9: in a registry with pairwise distinct native handles, the teardown hook for a handle
that no registered loop has leaves the whole state as it is, and the hook run twice for a
handle leaves the state the first run produced. -/
theorem teardown_idempotent (s : State Fn) (h : Nat) (hd : DistinctHandles s) :
    (getEventLoop s h = none → NativeModule_main_cleanup h s = s) ∧
    NativeModule_main_cleanup h (NativeModule_main_cleanup h s) =
      NativeModule_main_cleanup h s :=
  ⟨cleanup_absent h s, cleanup_absent h _ (getEventLoop_cleanup s h hd)⟩

/-- C9 at the example registry: handle 13 is not registered, and handle 12 is torn down
twice. -/
theorem teardown_idempotent_witness :
    DistinctHandles twoLoops ∧
    NativeModule_main_cleanup 13 twoLoops = twoLoops ∧
    NativeModule_main_cleanup 12 (NativeModule_main_cleanup 12 twoLoops) =
      NativeModule_main_cleanup 12 twoLoops :=
  ⟨by decide, (teardown_idempotent twoLoops 13 (by decide)).1 (by decide),
    (teardown_idempotent twoLoops 12 (by decide)).2⟩

/-! ## Loop start -/

/-- C10: when one of the five calls that precede the registration does not answer
`napi_ok`, `NativeModule_init` returns `nullptr`, the new object is deleted and the registry
is what it was (so is the whole heap, the address being that of no live object); when all
answer `napi_ok`, the new loop, with its handles and an empty pending queue, is appended at
the tail of the registry and every other object is unchanged. -/
theorem init_all_or_nothing (e : InitCalls) (s : State Fn) :
    (¬ e.registers →
      (NativeModule_init e s).1 = false ∧
      (NativeModule_init e s).2.nodejsEventLoops = s.nodejsEventLoops ∧
      (NativeModule_init e s).2.heap e.nodeLoop = none ∧
      (∀ p, p ≠ e.nodeLoop → (NativeModule_init e s).2.heap p = s.heap p) ∧
      (s.heap e.nodeLoop = none → (NativeModule_init e s).2.heap = s.heap)) ∧
    (e.registers →
      (NativeModule_init e s).2.nodejsEventLoops = s.nodejsEventLoops ++ [e.nodeLoop] ∧
      (NativeModule_init e s).2.heap e.nodeLoop = some e.entity ∧
      (NativeModule_init e s).2.queuedWork e.nodeLoop = [] ∧
      (∀ p, p ≠ e.nodeLoop → (NativeModule_init e s).2.heap p = s.heap p) ∧
      (NativeModule_init e s).2.calls = s.calls) := by
  refine ⟨?_, ?_⟩
  · intro h
    obtain ⟨cs, _, hs⟩ := init_fails e s h
    rw [hs]
    refine ⟨rfl, rfl, by simp, fun p hp => by simp [Function.update_noteq hp], ?_⟩
    intro hfresh
    show Function.update s.heap e.nodeLoop none = s.heap
    rw [← hfresh]; exact Function.update_eq_self _ _
  · intro h
    rw [init_registers e s h]
    exact ⟨rfl, by simp, by simp [State.queuedWork, InitCalls.entity],
      fun p hp => by simp [Function.update_noteq hp], rfl⟩

/-- C10 at the example registry: a start that fails at the cleanup hook leaves the two
loops, a start that succeeds adds the third at the tail. -/
theorem init_all_or_nothing_witness :
    (¬ failingInit.registers ∧
      (NativeModule_init failingInit twoLoops).2.nodejsEventLoops = [1, 2]) ∧
    ({ failingInit with add_env_cleanup_hook := .napi_ok : InitCalls }.registers ∧
      (NativeModule_init { failingInit with add_env_cleanup_hook := .napi_ok }
        twoLoops).2.nodejsEventLoops = [1, 2, 3]) := by
  refine ⟨⟨by decide, ?_⟩, ⟨by decide, ?_⟩⟩
  · exact ((init_all_or_nothing failingInit twoLoops).1 (by decide)).2.1
  · exact ((init_all_or_nothing { failingInit with add_env_cleanup_hook := .napi_ok }
      twoLoops).2 (by decide)).1

/-! ## Registry order -/

/-- Every live object is in the registry; kept by every transition. -/
theorem live_step (c : Config Fn) (st : Step Fn) (hreg : Registered c.state)
    (h : ∀ p, c.state.heap p ≠ none → p ∈ c.state.nodejsEventLoops) :
    ∀ p, (step c st).state.heap p ≠ none → p ∈ (step c st).state.nodejsEventLoops := by
  have hq : ∀ (loop : Nat) (work : Fn) (result : napi_status) (p : Nat),
      (step c (.queue loop work result)).state.heap p ≠ none →
        p ∈ (step c (.queue loop work result)).state.nodejsEventLoops := by
    intro loop work result p hp
    obtain ⟨_, _, h3, h4, _⟩ := step_queue_obs c loop work result
    rw [h3]
    rw [← uvLoop_ne_none, h4 p, uvLoop_ne_none] at hp
    exact h p hp
  cases st with
  | init e =>
    cases hl : c.state.heap e.nodeLoop with
    | some l =>
      have e1 : step c (.init e) = c := by simp [step, hl]
      rw [e1]; exact h
    | none =>
      have e1 : step c (.init e) = { c with state := (NativeModule_init e c.state).2 } := by
        simp [step, hl]
      rw [e1]
      by_cases hr : e.registers
      · rw [init_registers e c.state hr]
        intro p hp
        by_cases hpe : p = e.nodeLoop
        · simp [hpe]
        · have : c.state.heap p ≠ none := by simpa [Function.update_noteq hpe] using hp
          simp [h p this]
      · obtain ⟨cs, _, hs⟩ := init_fails e c.state hr
        rw [hs]
        intro p hp
        by_cases hpe : p = e.nodeLoop
        · subst hpe; simp at hp
        · exact h p (by simpa [Function.update_noteq hpe] using hp)
  | queue loop work result => exact hq loop work result
  | queueMain work result =>
    rw [step_queueMain_eq]
    cases hm : getMainEventLoop c.state with
    | none => exact h
    | some mainLoop => exact hq mainLoop work result
  | swap q =>
    by_cases hg : c.state.heap q ≠ none ∧ c.claimed q = []
    · obtain ⟨_, _, h3, h4, _⟩ := step_swap_obs c q hg
      intro p hp
      rw [h3]
      rw [← uvLoop_ne_none, h4 p, uvLoop_ne_none] at hp
      exact h p hp
    · rw [step_swap_idle c q hg]; exact h
  | exec q =>
    cases hc : c.claimed q with
    | nil => rw [step_exec_nil c q hc]; exact h
    | cons item rest =>
      obtain ⟨_, _, h3, h4⟩ := step_exec_cons c q item rest hc
      intro p hp
      rw [h3]; rw [h4] at hp
      exact h p hp
  | cleanup u =>
    cases hf : getEventLoop c.state u with
    | none => rw [step_cleanup_absent c u hf]; exact h
    | some loop =>
      obtain ⟨_, _, h3, h4⟩ := step_cleanup_found c u loop hf
      intro p hp
      rw [h3] at hp
      rw [h4]
      by_cases hpl : p = loop
      · subst hpl; simp at hp
      · rw [Function.update_noteq hpl] at hp
        exact (List.Nodup.mem_erase_iff hreg.2).2 ⟨hpl, h p hp⟩

theorem agrees_step (c : Config Fn) (reg : List (Nat × Nat)) (st : Step Fn)
    (hreg : Registered c.state)
    (hlive : ∀ p, c.state.heap p ≠ none → p ∈ c.state.nodejsEventLoops)
    (hd : DistinctHandles c.state) (ha : Agrees c reg) :
    Agrees (step c st) (registrySpecStep reg st) := by
  obtain ⟨a1, a2⟩ := ha
  have hq : ∀ (loop : Nat) (work : Fn) (result : napi_status),
      Agrees (step c (.queue loop work result)) reg := by
    intro loop work result
    obtain ⟨_, _, h3, h4, _⟩ := step_queue_obs c loop work result
    exact ⟨by rw [h3]; exact a1, fun x hx => by rw [h4]; exact a2 x hx⟩
  cases st with
  | init e =>
    cases hl : c.state.heap e.nodeLoop with
    | some l =>
      have e1 : step c (.init e) = c := by simp [step, hl]
      have hmem : e.nodeLoop ∈ reg.map Prod.fst := by
        rw [← a1]; exact hlive _ (by simp [hl])
      rw [e1]
      simp only [registrySpecStep, hmem, not_true_eq_false, and_false, if_false]
      exact ⟨a1, a2⟩
    | none =>
      have e1 : step c (.init e) = { c with state := (NativeModule_init e c.state).2 } := by
        simp [step, hl]
      have hfresh : e.nodeLoop ∉ reg.map Prod.fst := by
        rw [← a1]; exact fun hm => hreg.1 _ hm hl
      have hne : ∀ x ∈ reg, x.1 ≠ e.nodeLoop := by
        intro x hx heq
        exact hfresh (List.mem_map.2 ⟨x, hx, heq⟩)
      rw [e1]
      by_cases hr : e.registers
      · rw [init_registers e c.state hr]
        simp only [registrySpecStep, hr, hfresh, not_false_eq_true, and_self, if_true]
        refine ⟨by simp [a1], ?_⟩
        intro x hx
        simp only [List.mem_append, List.mem_singleton] at hx
        rcases hx with hx | hx
        · have := a2 x hx
          simpa [State.uvLoop, Function.update_noteq (hne x hx)] using this
        · subst hx
          simp [State.uvLoop, InitCalls.entity]
      · obtain ⟨cs, _, hs⟩ := init_fails e c.state hr
        rw [hs]
        simp only [registrySpecStep, hr, false_and, if_false]
        refine ⟨a1, ?_⟩
        intro x hx
        have := a2 x hx
        simpa [State.uvLoop, Function.update_noteq (hne x hx)] using this
  | queue loop work result => exact hq loop work result
  | queueMain work result =>
    rw [step_queueMain_eq]
    cases hm : getMainEventLoop c.state with
    | none => exact ⟨a1, a2⟩
    | some mainLoop => exact hq mainLoop work result
  | swap q =>
    by_cases hg : c.state.heap q ≠ none ∧ c.claimed q = []
    · obtain ⟨_, _, h3, h4, _⟩ := step_swap_obs c q hg
      exact ⟨by rw [h3]; exact a1, fun x hx => by rw [h4]; exact a2 x hx⟩
    · rw [step_swap_idle c q hg]; exact ⟨a1, a2⟩
  | exec q =>
    cases hc : c.claimed q with
    | nil => rw [step_exec_nil c q hc]; exact ⟨a1, a2⟩
    | cons item rest =>
      obtain ⟨_, _, h3, h4⟩ := step_exec_cons c q item rest hc
      exact ⟨by rw [h3]; exact a1, fun x hx => by
        have := a2 x hx
        simpa [State.uvLoop, h4] using this⟩
  | cleanup u =>
    cases hf : getEventLoop c.state u with
    | none =>
      rw [step_cleanup_absent c u hf]
      have hall : ∀ x ∈ reg, (x.2 != u) = true := by
        intro x hx
        have hmem : x.1 ∈ c.state.nodejsEventLoops := by
          rw [a1]; exact List.mem_map_of_mem _ hx
        unfold getEventLoop at hf
        have := List.find?_eq_none.1 hf x.1 hmem
        simp only [hasUvLoop, a2 x hx, beq_iff_eq, Option.some.injEq] at this
        simpa using this
      have : reg.filter (fun x => x.2 != u) = reg := List.filter_eq_self.2 hall
      simp only [registrySpecStep, this]
      exact ⟨a1, a2⟩
    | some loop =>
      obtain ⟨_, _, h3, h4⟩ := step_cleanup_found c u loop hf
      obtain ⟨hmem, hu⟩ := getEventLoop_some c.state u loop hf
      -- among the entries of the spec, having the handle and having the address are the same
      have hsame : ∀ x ∈ reg, (x.2 != u) = (x.1 != loop) := by
        intro x hx
        have hx1 : x.1 ∈ c.state.nodejsEventLoops := by
          rw [a1]; exact List.mem_map_of_mem _ hx
        by_cases h1 : x.1 = loop
        · have : x.2 = u := by
            have := a2 x hx
            rw [h1, hu] at this
            exact (Option.some.inj this).symm
          rw [h1, this]; simp
        · have : x.2 ≠ u := by
            intro h2
            exact h1 (List.inj_on_of_nodup_map hd hx1 hmem (by rw [a2 x hx, hu, h2]))
          rw [bne_iff_ne.2 this, bne_iff_ne.2 h1]
      have hfilter : reg.filter (fun x => x.2 != u) = reg.filter (fun x => x.1 != loop) :=
        List.filter_congr hsame
      simp only [registrySpecStep, hfilter]
      refine ⟨?_, ?_⟩
      · rw [h4, a1, List.Nodup.erase_eq_filter (by rw [← a1]; exact hreg.2), List.filter_map]
        rfl
      · intro x hx
        obtain ⟨hx1, hx2⟩ := List.mem_filter.1 hx
        have hne : x.1 ≠ loop := by simpa using hx2
        have := a2 x hx1
        simpa [State.uvLoop, h3, Function.update_noteq hne] using this

theorem agrees_run (tr : List (Step Fn)) :
    ∀ (c : Config Fn) (reg : List (Nat × Nat)), Registered c.state →
      (∀ p, c.state.heap p ≠ none → p ∈ c.state.nodejsEventLoops) →
      (∀ pre ∈ tr.inits, DistinctHandles (run c pre).state) →
      Agrees c reg → Agrees (run c tr) (tr.foldl registrySpecStep reg) := by
  induction tr with
  | nil => intro c reg _ _ _ ha; exact ha
  | cons st tr ih =>
    intro c reg hreg hlive hd ha
    have hd0 : DistinctHandles c.state := hd [] (by simp)
    refine ih (step c st) (registrySpecStep reg st) (registered_step c st hreg)
      (live_step c st hreg hlive) ?_ (agrees_step c reg st hreg hlive hd0 ha)
    intro pre hpre
    have := hd (st :: pre) (by simp [List.inits_cons, hpre])
    simpa [run_cons] using this

theorem getMainEventLoop_eq (s : State Fn) :
    getMainEventLoop s = s.nodejsEventLoops.head? := by
  cases h : s.nodejsEventLoops <;> simp [getMainEventLoop, h]

/-- C11: after every trace from the start of the process in which the registered loops have
pairwise distinct native handles at every moment, `getEventLoops` returns the loops that
were registered and not torn down since, in the order of their registration, and
`getMainEventLoop` returns the first of them, `nullptr` exactly when none is registered. -/
theorem registry_order (tr : List (Step Fn))
    (hd : ∀ pre ∈ tr.inits, DistinctHandles (run (Config.empty : Config Fn) pre).state) :
    getEventLoops (run (Config.empty : Config Fn) tr).state =
      (registrySpec tr).map Prod.fst ∧
    (∀ x ∈ registrySpec tr,
      (run (Config.empty : Config Fn) tr).state.uvLoop x.1 = some x.2) ∧
    getMainEventLoop (run (Config.empty : Config Fn) tr).state =
      ((registrySpec tr).map Prod.fst).head? ∧
    (getMainEventLoop (run (Config.empty : Config Fn) tr).state = none ↔
      getEventLoops (run (Config.empty : Config Fn) tr).state = []) := by
  have ha := agrees_run tr (Config.empty : Config Fn) [] registered_empty
    (by simp [Config.empty, State.empty]) hd
    ⟨by simp [Config.empty, State.empty], by simp⟩
  obtain ⟨a1, a2⟩ := ha
  refine ⟨a1, a2, ?_, ?_⟩
  · rw [getMainEventLoop_eq, a1]; rfl
  · rw [getMainEventLoop_eq]
    simp [getEventLoops]

/-- C11 on a trace of three starts and one teardown: loop 1 is torn down, loop 2 becomes the
main loop, loop 3 stands behind it. -/
theorem registry_order_witness :
    getEventLoops (run (Config.empty : Config Nat)
      [.init firstInit, .init secondInit, .queue 1 5 .napi_ok, .cleanup 11,
        .init { failingInit with add_env_cleanup_hook := .napi_ok }]).state = [2, 3] ∧
    getMainEventLoop (run (Config.empty : Config Nat)
      [.init firstInit, .init secondInit, .queue 1 5 .napi_ok, .cleanup 11,
        .init { failingInit with add_env_cleanup_hook := .napi_ok }]).state = some 2 := by
  have h := @registry_order Nat
    [.init firstInit, .init secondInit, .queue 1 5 .napi_ok, .cleanup 11,
      .init { failingInit with add_env_cleanup_hook := .napi_ok }] (by decide)
  exact ⟨h.1.trans (by decide), h.2.2.1.trans (by decide)⟩

/-! ## The argument vector -/

theorem c_str_length_le (s : CppString) : (c_str s).length ≤ s.length := by
  unfold c_str
  exact (List.takeWhile_sublist _).length_le

theorem c_str_of_no_NUL (s : CppString) (h : NUL ∉ s) : c_str s = s := by
  unfold c_str
  rw [List.takeWhile_eq_self_iff]
  intro c hc
  simp only [bne_iff_ne, ne_eq]
  rintro rfl
  exact h hc

theorem c_str_append_NUL (s t : List Char) : c_str (c_str s ++ NUL :: t) = c_str s := by
  unfold c_str
  induction s with
  | nil => simp [List.takeWhile]
  | cons a s ih =>
    by_cases ha : a = NUL
    · subst ha; simp [List.takeWhile]
    · have : (a != NUL) = true := bne_iff_ne.2 ha
      simp [List.takeWhile_cons, this, ih]

theorem padded_length (arg : CppString) : (padded arg).length = arg.length + 1 := by
  have := c_str_length_le arg
  simp [padded]
  omega

theorem strcpy_fresh (pre : List Char) (k : Nat) (arg : CppString) (hk : arg.length + 1 ≤ k) :
    strcpy (pre ++ List.replicate k NUL) pre.length arg =
      some ((pre ++ padded arg) ++ List.replicate (k - (arg.length + 1)) NUL) := by
  have hc := c_str_length_le arg
  have hfit : pre.length + ((c_str arg).length + 1) ≤ (pre ++ List.replicate k NUL).length := by
    simp; omega
  unfold strcpy
  rw [if_pos hfit]
  have h1 : (pre ++ List.replicate k NUL).take pre.length = pre := by simp
  have h2 : (pre ++ List.replicate k NUL).drop (pre.length + ((c_str arg).length + 1)) =
      List.replicate (k - ((c_str arg).length + 1)) NUL := by
    rw [List.drop_append_eq_append_drop]
    simp
  rw [h1, h2]
  have h3 : k - ((c_str arg).length + 1) =
      (arg.length - (c_str arg).length) + (k - (arg.length + 1)) := by omega
  rw [h3, List.replicate_add]
  simp [padded]

theorem packLoop_fresh (rest : List CppString) :
    ∀ (pre : List Char) (k : Nat) (argv : List Nat),
      (rest.map (fun arg => arg.length + 1)).sum ≤ k →
      packLoop rest (pre ++ List.replicate k NUL) pre.length argv =
        some (pre ++ (rest.map padded).flatten ++
            List.replicate (k - (rest.map (fun arg => arg.length + 1)).sum) NUL,
          argv ++ offsets pre.length rest) := by
  induction rest with
  | nil => intro pre k argv _; simp [packLoop, offsets]
  | cons arg rest ih =>
    intro pre k argv hk
    simp only [List.map_cons, List.sum_cons] at hk
    have hs := strcpy_fresh pre k arg (by omega)
    have hlen : (pre ++ padded arg).length = pre.length + (arg.length + 1) := by
      simp [padded_length]
    have := ih (pre ++ padded arg) (k - (arg.length + 1)) (argv ++ [pre.length]) (by omega)
    rw [hlen] at this
    simp only [packLoop, hs, this, List.map_cons, List.sum_cons, List.flatten_cons, offsets]
    simp [Nat.sub_add_eq]

theorem packArgs_eq (args : List CppString) :
    packArgs args = some ((args.map padded).flatten, offsets 0 args) := by
  have := packLoop_fresh args [] (args.map (fun arg => arg.length + 1)).sum [] (le_refl _)
  simpa [packArgs] using this

theorem readCString_offsets (rest : List CppString) :
    ∀ (pre tail : List Char),
      (offsets pre.length rest).map (readCString (pre ++ (rest.map padded).flatten ++ tail)) =
        rest.map c_str := by
  induction rest with
  | nil => intro pre tail; simp [offsets]
  | cons arg rest ih =>
    intro pre tail
    have hlen : (pre ++ padded arg).length = pre.length + (arg.length + 1) := by
      simp [padded_length]
    have h1 : readCString (pre ++ ((arg :: rest).map padded).flatten ++ tail) pre.length =
        c_str arg := by
      unfold readCString
      simp only [List.map_cons, List.flatten_cons, List.append_assoc,
        List.drop_left]
      simp only [padded, List.append_assoc, List.cons_append]
      exact c_str_append_NUL arg _
    have h2 := ih (pre ++ padded arg) tail
    rw [hlen] at h2
    simp only [List.map_cons] at h1
    simp only [offsets, List.map_cons]
    rw [h1]
    congr 1
    simpa [List.append_assoc] using h2

theorem offsets_length (args : List CppString) :
    ∀ first, (offsets first args).length = args.length := by
  induction args with
  | nil => intro first; rfl
  | cons arg rest ih => intro first; simp [offsets, ih]

theorem offsets_ge (args : List CppString) :
    ∀ first, ∀ q ∈ offsets first args, first ≤ q := by
  induction args with
  | nil => intro first q hq; simp [offsets] at hq
  | cons arg rest ih =>
    intro first q hq
    simp only [offsets, List.mem_cons] at hq
    rcases hq with rfl | hq
    · exact le_refl _
    · have := ih _ q hq
      omega

theorem offsets_apart (args : List CppString) :
    ∀ (first i j p q : Nat) (a : CppString), i < j →
      (offsets first args)[i]? = some p → (offsets first args)[j]? = some q →
      args[i]? = some a → p + (a.length + 1) ≤ q := by
  induction args with
  | nil => intro first i j p q a _ hp; simp [offsets] at hp
  | cons arg rest ih =>
    intro first i j p q a hij hp hq ha
    cases j with
    | zero => omega
    | succ j =>
      simp only [offsets, List.getElem?_cons_succ] at hq
      cases i with
      | zero =>
        simp only [offsets, List.getElem?_cons_zero, Option.some.injEq] at hp ha
        subst hp ha
        exact offsets_ge rest _ q (List.getElem?_mem hq)
      | succ i =>
        simp only [offsets, List.getElem?_cons_succ] at hp ha
        exact ih _ i j p q a (by omega) hp hq ha

theorem offsets_inside (args : List CppString) :
    ∀ (first i p : Nat) (a : CppString),
      (offsets first args)[i]? = some p → args[i]? = some a →
      p + (a.length + 1) ≤ first + (args.map (fun arg => arg.length + 1)).sum := by
  induction args with
  | nil => intro first i p a hp; simp [offsets] at hp
  | cons arg rest ih =>
    intro first i p a hp ha
    cases i with
    | zero =>
      simp only [offsets, List.getElem?_cons_zero, Option.some.injEq] at hp ha
      subst hp ha
      simp
    | succ i =>
      simp only [offsets, List.getElem?_cons_succ] at hp ha
      have := ih _ i p a hp ha
      simp only [List.map_cons, List.sum_cons]
      omega

theorem flatten_padded_length (args : List CppString) :
    ((args.map padded).flatten).length = (args.map (fun arg => arg.length + 1)).sum := by
  induction args with
  | nil => rfl
  | cons arg rest ih => simp [padded_length, ih]

/-! ## `start` -/

theorem argsLimit_eq : argsLimit = 2147483641 := by
  decide

theorem start_started (options : StartOptions) (l : Launcher)
    (h : l.nodejsMainThread.isSome = true) :
    start options l = some (.error .AlreadyStarted, l) := by
  unfold start
  rw [if_pos h]

theorem start_overflow (options : StartOptions) (l : Launcher)
    (h0 : l.nodejsMainThread = none) (h : argsLimit ≤ options.args.length) :
    start options l = some (.error .ArgumentOverflow, l) := by
  have hn : ¬ l.nodejsMainThread.isSome = true := by rw [h0]; simp
  unfold start
  rw [if_neg hn, if_pos h]

theorem start_launch (options : StartOptions) (l : Launcher)
    (h0 : l.nodejsMainThread = none) (h : options.args.length < argsLimit) :
    start options l = some (.ok (), launched options l) := by
  have hn : ¬ options.args.length ≥ argsLimit := by omega
  have hs : ¬ l.nodejsMainThread.isSome = true := by rw [h0]; simp
  unfold start
  rw [if_neg hs, if_neg hn]
  simp only [packArgs_eq]
  rfl

theorem launched_started (options : StartOptions) (l : Launcher) :
    (launched options l).nodejsMainThread.isSome = true := by
  simp [launched]

/-- What a call of `start` can return, by cases. -/
theorem start_cases (options : StartOptions) (l : Launcher) :
    (l.nodejsMainThread.isSome = true ∧ start options l = some (.error .AlreadyStarted, l)) ∨
    (l.nodejsMainThread = none ∧ argsLimit ≤ options.args.length ∧
      start options l = some (.error .ArgumentOverflow, l)) ∨
    (l.nodejsMainThread = none ∧ options.args.length < argsLimit ∧
      start options l = some (.ok (), launched options l)) := by
  cases h0 : l.nodejsMainThread with
  | some t => exact Or.inl ⟨rfl, start_started options l (by simp [h0])⟩
  | none =>
    by_cases h : argsLimit ≤ options.args.length
    · exact Or.inr (Or.inl ⟨rfl, h, start_overflow options l h0 h⟩)
    · exact Or.inr (Or.inr ⟨rfl, by omega, start_launch options l h0 (by omega)⟩)

theorem start_ok (options : StartOptions) (l l1 : Launcher)
    (h : start options l = some (.ok (), l1)) :
    l.nodejsMainThread = none ∧ options.args.length < argsLimit ∧ l1 = launched options l := by
  rcases start_cases options l with ⟨_, h1⟩ | ⟨_, _, h1⟩ | ⟨h0, h2, h1⟩
  · rw [h1] at h; simp at h
  · rw [h1] at h; simp at h
  · rw [h1] at h
    simp only [Option.some.injEq, Prod.mk.injEq, true_and] at h
    exact ⟨h0, h2, h.symm⟩

/-- C12: when a call of `start` has succeeded, a second call with any options throws
`AlreadyStarted` and leaves the process as the first call left it: the same launch thread,
no new thread, the same `NODE_PATH`.  The check comes first: `start` on a joinable
`nodejsMainThread` does nothing else. -/
theorem start_twice (first second : StartOptions) (l l1 : Launcher)
    (h : start first l = some (.ok (), l1)) :
    start second l1 = some (.error .AlreadyStarted, l1) ∧
    l1.nodejsMainThread.isSome = true ∧
    (∀ (options : StartOptions) (l0 : Launcher), l0.nodejsMainThread.isSome = true →
      start options l0 = some (.error .AlreadyStarted, l0)) := by
  obtain ⟨_, _, rfl⟩ := start_ok first l l1 h
  exact ⟨start_started second _ (launched_started first l), launched_started first l,
    fun options l0 h0 => start_started options l0 h0⟩

/-- C12 in a fresh process: the second call throws and changes nothing. -/
theorem start_twice_witness :
    start { args := ["main.js".toList], modulePaths := ["/lib".toList] } Launcher.fresh =
      some (.ok (), startedOnce) ∧
    start { args := [], modulePaths := ["/other".toList] } startedOnce =
      some (.error .AlreadyStarted, startedOnce) := by
  have h : start { args := ["main.js".toList], modulePaths := ["/lib".toList] }
      Launcher.fresh = some (.ok (), startedOnce) :=
    start_launch _ _ rfl (by rw [argsLimit_eq]; decide)
  exact ⟨h, (start_twice _ { args := [], modulePaths := ["/other".toList] } _ _ h).1⟩

theorem bootstrapArgs_length : bootstrapArgs.length = 3 := rfl

theorem launched_threads (options : StartOptions) (l : Launcher) :
    (launched options l).threads = l.threads ++
      [{ argsData := ((bootstrapArgs ++ options.args).map padded).flatten
         argv := offsets 0 (bootstrapArgs ++ options.args)
         argc := int_cast (bootstrapArgs ++ options.args).length }] := by
  unfold launched
  by_cases h : options.modulePaths.length > 0
  · rw [if_pos h]; rfl
  · rw [if_neg h]

theorem int_cast_exact (n : Nat) (h : n < 2 ^ 31) : int_cast n = (n : Int) := by
  have h1 : n % 2 ^ 32 = n := Nat.mod_eq_of_lt (by omega)
  unfold int_cast
  rw [h1, if_pos h]

/-- C13: in a process where `start` has not succeeded yet, `start` throws `ArgumentOverflow`
whenever the three bootstrap entries and `options.args` together would be more than
`2 ^ 31 - 1` arguments; and when `start` launches the engine, the `argc` it hands over is
`3 + options.args.size()`, a value the conversion to `int` leaves as it is. -/
theorem argument_overflow_guard (options : StartOptions) (l : Launcher)
    (h0 : l.nodejsMainThread = none) :
    (INT_MAX < bootstrapArgs.length + options.args.length →
      start options l = some (.error .ArgumentOverflow, l)) ∧
    (options.args.length < argsLimit →
      int_cast (bootstrapArgs ++ options.args).length = ((3 + options.args.length : Nat) : Int) ∧
      3 + options.args.length ≤ INT_MAX) ∧
    (∀ l1, start options l = some (.ok (), l1) →
      ∃ t, l1.nodejsMainThread = some t ∧ l1.threads = l.threads ++ [t] ∧
        t.argc = ((3 + options.args.length : Nat) : Int) ∧
        t.argv.length = 3 + options.args.length) := by
  have hcast : options.args.length < argsLimit →
      int_cast (bootstrapArgs ++ options.args).length =
        ((3 + options.args.length : Nat) : Int) := by
    intro h
    rw [argsLimit_eq] at h
    rw [List.length_append, bootstrapArgs_length]
    exact int_cast_exact _ (by omega)
  refine ⟨?_, ?_, ?_⟩
  · intro h
    apply start_overflow options l h0
    rw [argsLimit_eq]
    rw [bootstrapArgs_length] at h
    simp only [INT_MAX] at h
    omega
  · intro h
    refine ⟨hcast h, ?_⟩
    rw [argsLimit_eq] at h
    simp only [INT_MAX]
    omega
  · intro l1 h
    obtain ⟨_, hfit, rfl⟩ := start_ok options l l1 h
    refine ⟨_, rfl, launched_threads options l, hcast hfit, ?_⟩
    rw [offsets_length, List.length_append, bootstrapArgs_length]

/-- C13 in a fresh process with one argument: `argc` is 4. -/
theorem argument_overflow_guard_witness :
    Launcher.fresh.nodejsMainThread = none ∧
    ∃ t, (launched { args := ["main.js".toList] } Launcher.fresh).nodejsMainThread = some t ∧
      t.argc = 4 := by
  refine ⟨rfl, ?_⟩
  obtain ⟨t, h1, _, h3, _⟩ := (argument_overflow_guard { args := ["main.js".toList] }
    Launcher.fresh rfl).2.2 _ (start_launch _ _ rfl (by rw [argsLimit_eq]; decide))
  exact ⟨t, h1, by simpa using h3⟩

/-! ## `NODE_PATH` -/

theorem colonJoined_cons_cons (p q : CppString) (rest : List CppString) :
    colonJoined (p :: q :: rest) = p ++ ':' :: colonJoined (q :: rest) := rfl

theorem nodePathLoop_eq (size : Nat) (paths : List CppString) :
    ∀ (nodePath : CppString) (index : Nat), index + paths.length = size →
      nodePathLoop size paths nodePath index = nodePath ++ colonJoined paths := by
  induction paths with
  | nil => intro nodePath index _; simp [nodePathLoop, colonJoined]
  | cons p rest ih =>
    intro nodePath index h
    simp only [List.length_cons] at h
    cases rest with
    | nil =>
      have hlast : ¬ index < size - 1 := by simp at h; omega
      simp [nodePathLoop, hlast, colonJoined]
    | cons q rest =>
      have hmore : index < size - 1 := by simp at h; omega
      simp only [nodePathLoop, hmore, if_true] at ih ⊢
      rw [ih _ (index + 1) (by simp at h ⊢; omega), colonJoined_cons_cons]
      simp

theorem NUL_not_mem_c_str (s : CppString) : NUL ∉ c_str s := by
  unfold c_str
  intro h
  have := List.mem_takeWhile_imp h
  simp at this

theorem NUL_not_mem_colonJoined (paths : List CppString) (h : ∀ p ∈ paths, NUL ∉ p) :
    NUL ∉ colonJoined paths := by
  induction paths with
  | nil => simp [colonJoined]
  | cons p rest ih =>
    cases rest with
    | nil => simpa [colonJoined] using h p (by simp)
    | cons q rest =>
      rw [colonJoined_cons_cons]
      have h1 := h p (by simp)
      have h2 := ih (fun x hx => h x (List.mem_cons_of_mem _ hx))
      have h3 : NUL ≠ ':' := by decide
      simp [h1, h2, h3]

/-- The value `start` gives to `setenv`, before it is read as a C string. -/
theorem setNodePath_eq (paths : List CppString) (l : Launcher) :
    (setNodePath paths l).NODE_PATH =
      some (c_str
        (match getenv_NODE_PATH l with
        | some prev => if prev ≠ [] then colonJoined paths ++ ':' :: prev else colonJoined paths
        | none => colonJoined paths)) := by
  have hloop := nodePathLoop_eq paths.length paths [] 0 (by simp)
  unfold setNodePath
  simp only [setenv_NODE_PATH, hloop, List.nil_append]
  cases hp : getenv_NODE_PATH l with
  | none => simp
  | some prev =>
    cases prev with
    | nil => simp
    | cons a prev => simp

theorem launched_NODE_PATH (options : StartOptions) (l : Launcher) :
    (launched options l).NODE_PATH =
      if options.modulePaths.length > 0 then (setNodePath options.modulePaths l).NODE_PATH
      else l.NODE_PATH := by
  unfold launched
  by_cases h : options.modulePaths.length > 0
  · rw [if_pos h, if_pos h]
  · rw [if_neg h, if_neg h]

/-- C14, amended: when `start` launches the engine with a non-empty list of module paths
none of which contains a NUL char, `NODE_PATH` becomes `p1:p2:...:pn`, followed by a colon
and the previous value when that was set and not empty, and nothing more when it was unset
or empty; with an empty list `NODE_PATH` is left as it was.  (With any paths the value is the
C string of that join: `setenv` reads up to the first NUL.) -/
theorem node_path_merge (options : StartOptions) (l l1 : Launcher)
    (hs : start options l = some (.ok (), l1)) :
    (options.modulePaths ≠ [] → (∀ p ∈ options.modulePaths, NUL ∉ p) →
      l1.NODE_PATH = some
        (match getenv_NODE_PATH l with
        | some prev =>
          if prev ≠ [] then colonJoined options.modulePaths ++ ':' :: prev
          else colonJoined options.modulePaths
        | none => colonJoined options.modulePaths)) ∧
    (options.modulePaths ≠ [] →
      l1.NODE_PATH = some (c_str
        (match getenv_NODE_PATH l with
        | some prev =>
          if prev ≠ [] then colonJoined options.modulePaths ++ ':' :: prev
          else colonJoined options.modulePaths
        | none => colonJoined options.modulePaths))) ∧
    (options.modulePaths = [] → l1.NODE_PATH = l.NODE_PATH) := by
  obtain ⟨_, _, rfl⟩ := start_ok options l l1 hs
  have hgen : options.modulePaths ≠ [] →
      (launched options l).NODE_PATH = some (c_str
        (match getenv_NODE_PATH l with
        | some prev =>
          if prev ≠ [] then colonJoined options.modulePaths ++ ':' :: prev
          else colonJoined options.modulePaths
        | none => colonJoined options.modulePaths)) := by
    intro hne
    have hpos : options.modulePaths.length > 0 := List.length_pos.2 hne
    rw [launched_NODE_PATH, if_pos hpos, setNodePath_eq]
  refine ⟨?_, hgen, ?_⟩
  · intro hne hnul
    rw [hgen hne]
    have hj := NUL_not_mem_colonJoined options.modulePaths hnul
    have h3 : NUL ≠ ':' := by decide
    congr 1
    apply c_str_of_no_NUL
    cases hp : getenv_NODE_PATH l with
    | none => simpa using hj
    | some prev =>
      have hprev : NUL ∉ prev := by
        unfold getenv_NODE_PATH at hp
        cases hst : l.NODE_PATH with
        | none => simp [hst] at hp
        | some x =>
          simp only [hst, Option.map_some', Option.some.injEq] at hp
          rw [← hp]; exact NUL_not_mem_c_str x
      by_cases he : prev = []
      · simpa [he] using hj
      · simp [he, hj, h3, hprev]
  · intro he
    rw [launched_NODE_PATH, he]
    simp

/-- C14 as stated fails on a module path with a NUL char in it: in a fresh process with
`NODE_PATH` unset, `start` with the one path `a\0b` sets `NODE_PATH` to `a`. -/
theorem node_path_merge_counterexample :
    ∃ l1, start { args := [], modulePaths := [['a', NUL, 'b']] } Launcher.fresh =
        some (.ok (), l1) ∧
      getenv_NODE_PATH Launcher.fresh = none ∧
      l1.NODE_PATH = some ['a'] ∧
      l1.NODE_PATH ≠ some (colonJoined [['a', NUL, 'b']]) :=
  ⟨launched { args := [], modulePaths := [['a', NUL, 'b']] } Launcher.fresh,
    start_launch _ _ rfl (by rw [argsLimit_eq]; decide), rfl, by decide, by decide⟩

/-- C14, amended, in a process whose `NODE_PATH` is `/usr/lib`: two module paths are put in
front of it. -/
theorem node_path_merge_witness :
    start { args := [], modulePaths := ["/a".toList, "/b".toList] }
        { Launcher.fresh with NODE_PATH := some "/usr/lib".toList } =
      some (.ok (), launched { args := [], modulePaths := ["/a".toList, "/b".toList] }
        { Launcher.fresh with NODE_PATH := some "/usr/lib".toList }) ∧
    (launched { args := [], modulePaths := ["/a".toList, "/b".toList] }
        { Launcher.fresh with NODE_PATH := some "/usr/lib".toList }).NODE_PATH =
      some "/a:/b:/usr/lib".toList := by
  have hs : start { args := [], modulePaths := ["/a".toList, "/b".toList] }
        { Launcher.fresh with NODE_PATH := some "/usr/lib".toList } =
      some (.ok (), launched { args := [], modulePaths := ["/a".toList, "/b".toList] }
        { Launcher.fresh with NODE_PATH := some "/usr/lib".toList }) :=
    start_launch _ _ rfl (by rw [argsLimit_eq]; decide)
  refine ⟨hs, ?_⟩
  rw [(node_path_merge _ _ _ hs).1 (by decide) (by decide)]
  decide

/-! ## The packing of `argv` -/

theorem bootstrapArgs_no_NUL : ∀ a ∈ bootstrapArgs, NUL ∉ a := by
  decide

/-- C15: when `start` launches the engine with arguments that contain no NUL char, the
thread receives `argc = 3 + options.args.size()` and as many pointers; the C strings read at
`argv[0]`, `argv[1]`, ... in the buffer are `node`, `-e`, the bootstrap script and then
`options.args`, unchanged and in order; the buffer has `sum (len(arg) + 1)` chars, the
`len(arg) + 1` chars of every entry lie inside it, and an entry ends before a later one
begins. -/
theorem argv_packing (options : StartOptions) (l : Launcher)
    (h0 : l.nodejsMainThread = none) (hfit : options.args.length < argsLimit)
    (hnul : ∀ a ∈ options.args, NUL ∉ a) :
    ∃ l1 t, start options l = some (.ok (), l1) ∧ l1.nodejsMainThread = some t ∧
      t.argc = ((3 + options.args.length : Nat) : Int) ∧
      t.argv.length = 3 + options.args.length ∧
      t.argv.map (readCString t.argsData) = bootstrapArgs ++ options.args ∧
      t.argsData.length = ((bootstrapArgs ++ options.args).map (fun a => a.length + 1)).sum ∧
      (∀ (i p : Nat) (a : CppString), t.argv[i]? = some p →
        (bootstrapArgs ++ options.args)[i]? = some a →
        p + (a.length + 1) ≤ t.argsData.length) ∧
      (∀ (i j p q : Nat) (a : CppString), i < j → t.argv[i]? = some p → t.argv[j]? = some q →
        (bootstrapArgs ++ options.args)[i]? = some a → p + (a.length + 1) ≤ q) := by
  refine ⟨launched options l, _, start_launch options l h0 hfit, rfl, ?_, ?_, ?_, ?_, ?_, ?_⟩
  · rw [argsLimit_eq] at hfit
    show int_cast (bootstrapArgs ++ options.args).length = _
    rw [List.length_append, bootstrapArgs_length]
    exact int_cast_exact _ (by omega)
  · show (offsets 0 (bootstrapArgs ++ options.args)).length = _
    rw [offsets_length, List.length_append, bootstrapArgs_length]
  · show (offsets 0 (bootstrapArgs ++ options.args)).map
      (readCString ((bootstrapArgs ++ options.args).map padded).flatten) = _
    have h := readCString_offsets (bootstrapArgs ++ options.args) [] []
    simp only [List.length_nil, List.nil_append, List.append_nil] at h
    rw [h]
    have hall : ∀ a ∈ bootstrapArgs ++ options.args, NUL ∉ a := by
      intro a ha
      rcases List.mem_append.1 ha with ha | ha
      · exact bootstrapArgs_no_NUL a ha
      · exact hnul a ha
    calc (bootstrapArgs ++ options.args).map c_str
        = (bootstrapArgs ++ options.args).map id :=
          List.map_congr_left (fun a ha => c_str_of_no_NUL a (hall a ha))
      _ = bootstrapArgs ++ options.args := List.map_id _
  · exact flatten_padded_length _
  · intro i p a hp ha
    have := offsets_inside (bootstrapArgs ++ options.args) 0 i p a hp ha
    show p + (a.length + 1) ≤ (((bootstrapArgs ++ options.args).map padded).flatten).length
    rw [flatten_padded_length]
    omega
  · intro i j p q a hij hp hq ha
    exact offsets_apart (bootstrapArgs ++ options.args) 0 i j p q a hij hp hq ha

/-- C15 in a fresh process with two arguments: the pointers and what is read at the last
two. -/
theorem argv_packing_witness :
    ∃ l1 t, start { args := ["main.js".toList, "-v".toList] } Launcher.fresh =
        some (.ok (), l1) ∧
      l1.nodejsMainThread = some t ∧ t.argc = 5 ∧ t.argv = [0, 5, 8, 127, 135] ∧
      t.argv.map (readCString t.argsData) =
        bootstrapArgs ++ ["main.js".toList, "-v".toList] := by
  obtain ⟨l1, t, h1, h2, h3, _, h5, _⟩ :=
    argv_packing { args := ["main.js".toList, "-v".toList] } Launcher.fresh rfl
      (by rw [argsLimit_eq]; decide) (by decide)
  refine ⟨l1, t, h1, h2, by simpa using h3, ?_, h5⟩
  obtain ⟨_, _, rfl⟩ := start_ok _ _ _ h1
  have ht : t = { argsData := ((bootstrapArgs ++ ["main.js".toList, "-v".toList]).map
        padded).flatten
                  argv := offsets 0 (bootstrapArgs ++ ["main.js".toList, "-v".toList])
                  argc := int_cast (bootstrapArgs ++ ["main.js".toList, "-v".toList]).length } :=
    (Option.some.inj h2).symm
  rw [ht]
  decide

/-! ## The overflow bound -/

/-- C17: in a process where `start` has not succeeded yet, `start` throws `ArgumentOverflow`
exactly when `options.args.size()` is at least `(2 ^ 31 - 1) - (2 + sizeof(int))`, which is
`2147483641` for a 4-byte `int`: six are taken off, not the three bootstrap entries, so the
sizes `2147483641` to `2147483644` are refused although `3 + size` is an `int`. -/
theorem overflow_threshold (options : StartOptions) (l : Launcher)
    (h0 : l.nodejsMainThread = none) :
    argsLimit = INT_MAX - (2 + sizeof_int) ∧ argsLimit = 2147483641 ∧
    (start options l = some (.error .ArgumentOverflow, l) ↔
      2147483641 ≤ options.args.length) ∧
    (options.args.length < 2147483641 → start options l = some (.ok (), launched options l)) ∧
    (2147483641 ≤ options.args.length → options.args.length ≤ 2147483644 →
      start options l = some (.error .ArgumentOverflow, l) ∧
      3 + options.args.length ≤ INT_MAX ∧
      int_cast (3 + options.args.length) = ((3 + options.args.length : Nat) : Int)) := by
  refine ⟨by decide, argsLimit_eq, ?_, ?_, ?_⟩
  · constructor
    · intro h
      by_contra hlt
      rw [start_launch options l h0 (by rw [argsLimit_eq]; omega)] at h
      simp at h
    · intro h
      exact start_overflow options l h0 (by rw [argsLimit_eq]; exact h)
  · intro h
    exact start_launch options l h0 (by rw [argsLimit_eq]; exact h)
  · intro h1 h2
    refine ⟨start_overflow options l h0 (by rw [argsLimit_eq]; exact h1), ?_, ?_⟩
    · simp only [INT_MAX]; omega
    · exact int_cast_exact _ (by omega)

/-- C17 in a fresh process: a list of `2147483641` arguments is refused, although with the
three bootstrap entries that makes `2147483644` arguments, fewer than `2 ^ 31`; no argument
at all is accepted. -/
theorem overflow_threshold_witness :
    Launcher.fresh.nodejsMainThread = none ∧
    (∃ args : List CppString, args.length = 2147483641 ∧
      start { args := args } Launcher.fresh = some (.error .ArgumentOverflow, Launcher.fresh) ∧
      3 + args.length ≤ INT_MAX) ∧
    start { args := [] } Launcher.fresh =
      some (.ok (), launched { args := [] } Launcher.fresh) := by
  have key : ∀ args : List CppString, args.length = 2147483641 →
      start { args := args } Launcher.fresh = some (.error .ArgumentOverflow, Launcher.fresh) ∧
      3 + args.length ≤ INT_MAX := by
    intro args h
    have h2 := (overflow_threshold { args := args } Launcher.fresh rfl).2.2.2.2
      (le_of_eq h.symm) (by rw [h]; decide)
    exact ⟨h2.1, h2.2.1⟩
  refine ⟨rfl, ⟨List.replicate 2147483641 [], List.length_replicate _ _,
    key _ (List.length_replicate _ _)⟩, ?_⟩
  exact (overflow_threshold { args := [] } Launcher.fresh rfl).2.2.2.1 (by decide)

/-! ## The started state -/

theorem processStep_keeps_thread (p : Process Fn) (st : ProcessStep Fn) (t : MainThread)
    (h : p.launcher.nodejsMainThread = some t) :
    (processStep p st).launcher.nodejsMainThread = some t := by
  cases st with
  | start options =>
    have hs := start_started options p.launcher (by rw [h]; rfl)
    simp only [processStep, hs]
    exact h
  | nodejs_main exitCode => exact h
  | loop st => exact h
  | NativeModule_send => exact h
  | NativeModule_setReciever => exact h

theorem processRun_keeps_thread (tr : List (ProcessStep Fn)) (t : MainThread) :
    ∀ p : Process Fn, p.launcher.nodejsMainThread = some t →
      (processRun p tr).launcher.nodejsMainThread = some t := by
  induction tr with
  | nil => intro p h; exact h
  | cons st tr ih => intro p h; exact ih _ (processStep_keeps_thread p st t h)

/-- C18: once a call of `start` has succeeded, whatever the process does afterwards (calls
of `start`, the return of `node::Start` in the launch thread, transitions of the loops, the
two messaging stubs), `nodejsMainThread` is the same joinable thread and every call of
`start` throws `AlreadyStarted` and changes nothing.  A call that throws
`ArgumentOverflow` leaves the process as it was, not started, and a later call with fewer
than `2147483641` arguments launches the engine. -/
theorem started_never_reset :
    (∀ (p : Process Fn) (options : StartOptions) (l1 : Launcher)
        (tr : List (ProcessStep Fn)),
      start options p.launcher = some (.ok (), l1) →
      l1.nodejsMainThread.isSome = true ∧
      (processRun { p with launcher := l1 } tr).launcher.nodejsMainThread =
        l1.nodejsMainThread ∧
      ∀ later : StartOptions,
        start later (processRun { p with launcher := l1 } tr).launcher =
          some (.error .AlreadyStarted, (processRun { p with launcher := l1 } tr).launcher)) ∧
    (∀ (l l2 : Launcher) (options : StartOptions),
      start options l = some (.error .ArgumentOverflow, l2) →
      l2 = l ∧ l2.nodejsMainThread = none ∧
      ∀ later : StartOptions, later.args.length < 2147483641 →
        start later l2 = some (.ok (), launched later l2) ∧
        (launched later l2).nodejsMainThread.isSome = true) := by
  refine ⟨?_, ?_⟩
  · intro p options l1 tr hs
    obtain ⟨_, _, rfl⟩ := start_ok options p.launcher l1 hs
    have hsome := launched_started options p.launcher
    obtain ⟨t, ht⟩ := Option.isSome_iff_exists.1 hsome
    have hkeep := processRun_keeps_thread tr t
      ({ p with launcher := launched options p.launcher } : Process Fn) ht
    refine ⟨hsome, by rw [hkeep, ht], fun later => ?_⟩
    exact start_started later _ (by rw [hkeep]; rfl)
  · intro l l2 options hs
    rcases start_cases options l with ⟨_, h1⟩ | ⟨h0, _, h1⟩ | ⟨_, _, h1⟩
    · rw [h1] at hs; simp at hs
    · rw [h1] at hs
      simp only [Option.some.injEq, Prod.mk.injEq, true_and] at hs
      subst hs
      refine ⟨rfl, h0, fun later hl => ?_⟩
      exact ⟨start_launch later l h0 (by rw [argsLimit_eq]; exact hl), launched_started later l⟩
    · rw [h1] at hs; simp at hs

/-- C18 on a process that has started once: after the engine has exited and a loop
transition, `start` still throws. -/
theorem started_never_reset_witness :
    start { args := ["main.js".toList], modulePaths := ["/lib".toList] } Launcher.fresh =
      some (.ok (), startedOnce) ∧
    start { args := [] }
        (processRun ({ launcher := startedOnce, config := Config.empty } : Process Nat)
          [.nodejs_main 0, .loop (.init firstInit), .start { args := [] }]).launcher =
      some (.error .AlreadyStarted,
        (processRun ({ launcher := startedOnce, config := Config.empty } : Process Nat)
          [.nodejs_main 0, .loop (.init firstInit), .start { args := [] }]).launcher) := by
  have hs : start { args := ["main.js".toList], modulePaths := ["/lib".toList] }
      Launcher.fresh = some (.ok (), startedOnce) :=
    start_launch _ _ rfl (by rw [argsLimit_eq]; decide)
  exact ⟨hs, ((@started_never_reset Nat).1
    { launcher := Launcher.fresh, config := Config.empty } _ startedOnce
    [.nodejs_main 0, .loop (.init firstInit), .start { args := [] }] hs).2.2 { args := [] }⟩

/-! ## A failed signal -/

/-- C16: on a registered loop, a call `queue(L, w)` whose signal answers neither `napi_ok`
nor `napi_queue_full` throws `ActivationFailure` with `w` already at the tail of the pending
queue of `L`; `w` stays pending while no pass of `L` starts and `L` is not torn down, and
the next drain pass of `L` calls it.  A call that throws `InvalidLoop` leaves the whole
state as it was. -/
theorem activation_failure_not_atomic [DecidableEq Fn] (s : State Fn) (L : Nat)
    (l : EventLoop Fn) (w : Fn) (r : napi_status)
    (hreg : L ∈ s.nodejsEventLoops) (hl : s.heap L = some l)
    (h1 : r ≠ .napi_ok) (h2 : r ≠ .napi_queue_full) :
    (queue L w r s).1 = .error (.ActivationFailure r) ∧
    (queue L w r s).2.queuedWork L = l.queuedWork ++ [{ work := w }] ∧
    (queue L w r s).2.queuedWork L ≠ s.queuedWork L ∧
    (∀ (claimed : Nat → List (EventLoopWork Fn)) (tr : List (Step Fn)),
      Step.swap L ∉ tr → Step.cleanup l.uvLoop ∉ tr →
      { work := w } ∈
        (run { state := (queue L w r s).2, claimed := claimed } tr).state.queuedWork L) ∧
    executed (handleLoopQueue .napi_ok L (queue L w r s).2) =
      executed s ++ l.queuedWork.map (fun i => (L, i.work)) ++ [(L, w)] ∧
    (∀ (s0 : State Fn) (loop : Nat) (w0 : Fn) (r0 : napi_status),
      (queue loop w0 r0 s0).1 = .error .InvalidLoop → (queue loop w0 r0 s0).2 = s0) := by
  have hs := queue_state L w r s l hreg hl
  have hq : (queue L w r s).2.queuedWork L = l.queuedWork ++ [{ work := w }] := by
    rw [hs]; simp [State.queuedWork]
  refine ⟨?_, hq, ?_, ?_, ?_, ?_⟩
  · rw [queue_result L w r s hreg]; simp [h1, h2]
  · rw [hq]
    simp [State.queuedWork, hl]
  · intro claimed tr hsw hcl
    have hu : (queue L w r s).2.uvLoop L = some l.uvLoop := by
      rw [hs]; simp [State.uvLoop]
    have hge := (run_load_ge tr L l.uvLoop w hcl
      { state := (queue L w r s).2, claimed := claimed } hu).2
    have heq := run_done_eq tr L w hsw { state := (queue L w r s).2, claimed := claimed }
    have hp : 1 ≤ nPending { state := (queue L w r s).2, claimed := claimed } L w := by
      simp [nPending, hq]
    have : 0 < nPending (run { state := (queue L w r s).2, claimed := claimed } tr) L w := by
      omega
    exact List.count_pos_iff.1 this
  · rw [handleLoopQueue_state L _ { l with queuedWork := l.queuedWork ++ [{ work := w }] }
      (by rw [hs]; simp), hs]
    have hmap : ∀ items : List (EventLoopWork Fn),
        List.filterMap (fun x => some (L, x.work)) items =
          items.map (fun i => (L, i.work)) := by
      intro items
      induction items with
      | nil => rfl
      | cons i items ih => simp [ih]
    simp only [executed, List.filterMap_append, List.filterMap_map, Function.comp_def,
      List.map_append, List.map_cons, List.map_nil, List.filterMap_cons, List.filterMap_nil,
      List.append_nil, List.append_assoc]
    rw [hmap]
    simp
  · intro s0 loop w0 r0 h
    by_cases hmem : loop ∈ s0.nodejsEventLoops
    · rw [queue_result loop w0 r0 s0 hmem] at h
      split at h <;> simp at h
    · rw [queue_invalid loop w0 r0 s0 hmem]

/-- C16 at the example registry: the signal for item 9 on loop 2 fails, and the next pass
calls 9 after 7 and 8. -/
theorem activation_failure_not_atomic_witness :
    2 ∈ twoLoops.nodejsEventLoops ∧
    (queue 2 9 (.failure 9) twoLoops).1 = .error (.ActivationFailure (.failure 9)) ∧
    executed (handleLoopQueue .napi_ok 2 (queue 2 9 (.failure 9) twoLoops).2) =
      [(2, 7), (2, 8), (2, 9)] := by
  have h := activation_failure_not_atomic twoLoops 2
    { uvLoop := 12, threadId := 2, queuedWork := [⟨7⟩, ⟨8⟩], queueFunction := 22 } 9
    (.failure 9) (by decide) rfl (by decide) (by decide)
  refine ⟨by decide, h.1, ?_⟩
  rw [h.2.2.2.2.1]; rfl

/-! ## Frames -/

/-- C19: in a registry with pairwise distinct native handles and for a registered loop `L`,
`queue(L, w)` keeps the registry and every other object and changes in `L` only the pending
queue, which gets `w` at its tail; a drain pass of `L` keeps the registry and every other
object and changes in `L` only the pending queue, which it empties; the teardown hook of `L`
takes exactly `L` out of the registry, the other entries keeping their order, and keeps
every other object.  (Besides, each records its calls: the signal, the work items, the
release.) -/
theorem frame_effects (s : State Fn) (L : Nat) (l : EventLoop Fn) (w : Fn) (r : napi_status)
    (hd : DistinctHandles s) (hreg : L ∈ s.nodejsEventLoops) (hl : s.heap L = some l) :
    ((queue L w r s).2.nodejsEventLoops = s.nodejsEventLoops ∧
      (queue L w r s).2.heap L =
        some { l with queuedWork := l.queuedWork ++ [{ work := w }] } ∧
      ∀ p, p ≠ L → (queue L w r s).2.heap p = s.heap p) ∧
    ((handleLoopQueue .napi_ok L s).nodejsEventLoops = s.nodejsEventLoops ∧
      (handleLoopQueue .napi_ok L s).heap L = some { l with queuedWork := [] } ∧
      ∀ p, p ≠ L → (handleLoopQueue .napi_ok L s).heap p = s.heap p) ∧
    ((NativeModule_main_cleanup l.uvLoop s).nodejsEventLoops =
        s.nodejsEventLoops.filter (fun p => p != L) ∧
      L ∉ (NativeModule_main_cleanup l.uvLoop s).nodejsEventLoops ∧
      (∀ p, p ≠ L → (p ∈ (NativeModule_main_cleanup l.uvLoop s).nodejsEventLoops ↔
        p ∈ s.nodejsEventLoops)) ∧
      ∀ p, p ≠ L → (NativeModule_main_cleanup l.uvLoop s).heap p = s.heap p) := by
  refine ⟨?_, ?_, ?_⟩
  · rw [queue_state L w r s l hreg hl]
    exact ⟨rfl, by simp, fun p hp => by simp [Function.update_noteq hp]⟩
  · rw [handleLoopQueue_state L s l hl]
    exact ⟨rfl, by simp, fun p hp => by simp [Function.update_noteq hp]⟩
  · have hu : s.uvLoop L = some l.uvLoop := by simp [State.uvLoop, hl]
    obtain ⟨cs, _, hs⟩ := cleanup_removes s L l.uvLoop hd hreg hu
    have hnd := distinct_nodup s hd
    rw [hs]
    refine ⟨List.Nodup.erase_eq_filter hnd L, ?_, ?_, fun p hp => by
      simp [Function.update_noteq hp]⟩
    · intro hmem
      exact ((List.Nodup.mem_erase_iff hnd).1 hmem).1 rfl
    · intro p hp
      simp [List.Nodup.mem_erase_iff hnd, hp]

/-- C19 at the example registry, for loop 2. -/
theorem frame_effects_witness :
    (DistinctHandles twoLoops ∧ 2 ∈ twoLoops.nodejsEventLoops) ∧
    (queue 2 9 .napi_ok twoLoops).2.heap 1 = twoLoops.heap 1 ∧
    (handleLoopQueue .napi_ok 2 twoLoops).heap 1 = twoLoops.heap 1 ∧
    (NativeModule_main_cleanup 12 twoLoops).nodejsEventLoops = [1] := by
  have h := frame_effects twoLoops 2
    { uvLoop := 12, threadId := 2, queuedWork := [⟨7⟩, ⟨8⟩], queueFunction := 22 } 9 .napi_ok
    (by decide) (by decide) rfl
  exact ⟨⟨by decide, by decide⟩, h.1.2.2 1 (by decide), h.2.1.2.2 1 (by decide),
    h.2.2.1.trans (by decide)⟩

end embed.nodejs
